import Mathlib

/-!
# Containers.LinkedList (dream.cpp)

A shallow embedding of the singly linked list of `dream.cpp`.

* The chain of nodes owned through `head` is a `List T`: the empty list is
  `head == nullptr`, and the node at position `k` is the one reached from
  `head` by `k` steps of `next`.
* `tail` is a non-owning pointer into that chain. It is kept as a `NodePtr`:
  null, the position of the node it points to, or dangling (the node it
  pointed to has been deleted).
* `sizeOfList` is a `size_t`; every `++` and `--` is taken modulo `2 ^ 64`.
* `int` is 32 bits wide, `size_t` is 64 bits wide.
* A call ends in one of three ways: it returns, it throws, or it runs into
  undefined behaviour (a read through a null or dangling pointer, or a signed
  overflow). Allocation failure is not modelled.
-/

namespace Containers

/-- Number of values of `size_t`. -/
def SIZE_MOD : Nat := 2 ^ 64

/-- Largest value of `int`. -/
def INT_MAX : Int := 2 ^ 31 - 1

/-- Smallest value of `int`. -/
def INT_MIN : Int := -(2 ^ 31)

/-- The conversion `int(x)` of a `size_t` value: reduction modulo `2 ^ 32` into
the range of `int`. -/
def toInt (x : Nat) : Int :=
  (((x : Int) + 2 ^ 31) % 2 ^ 32) - 2 ^ 31

/-- The conversion of an `int` to `size_t` in a mixed expression. -/
def toSizeT (x : Int) : Nat :=
  (x % 2 ^ 64).toNat

/-- The operation `++sizeOfList` on a `size_t`. -/
def incSize (s : Nat) : Nat := (s + 1) % SIZE_MOD

/-- The operation `--sizeOfList` on a `size_t`. -/
def decSize (s : Nat) : Nat := (s + SIZE_MOD - 1) % SIZE_MOD

/-- A `ListNode<T>*` that is looked at from one list: null, the node at a
position of the chain of that list, or a pointer to a deleted node. -/
inductive NodePtr where
  | null : NodePtr
  | node (pos : Nat) : NodePtr
  | dangling : NodePtr
deriving DecidableEq

/-- Where a pointer points after a new node has been linked in front of the
chain: the node it points to is one step further from `head`. -/
def NodePtr.afterLinkFront : NodePtr → NodePtr
  | .null => .null
  | .node t => .node (t + 1)
  | .dangling => .dangling

/-- Where a pointer points after the node at position `p` has been unlinked
and deleted: nodes behind `p` move one step towards `head`, a pointer to the
deleted node dangles. -/
def NodePtr.afterDelete (p : Nat) : NodePtr → NodePtr
  | .null => .null
  | .node t => if t < p then .node t else if t = p then .dangling else .node (t - 1)
  | .dangling => .dangling

/-- The class `LinkedList<T>`: `sizeOfList`, `head` (with the chain it owns)
and `tail`. -/
structure LinkedList (T : Type) where
  sizeOfList : Nat
  head : List T
  tail : NodePtr
deriving DecidableEq

/-- The two exception types the class throws. -/
inductive Exception where
  | out_of_range : Exception
  | runtime_error : Exception
deriving DecidableEq

/-- How a call of a member function ends: it returns `value` and leaves the
object as `post`, it throws `e` and leaves the object as `post`, or its
behaviour is undefined. -/
inductive Outcome (α : Type) (T : Type) where
  | returned (value : α) (post : LinkedList T) : Outcome α T
  | thrown (e : Exception) (post : LinkedList T) : Outcome α T
  | undefined : Outcome α T
deriving DecidableEq

/-- Sequencing of two calls on the same object: an exception or undefined
behaviour of the first call ends the caller. -/
def Outcome.andThen {α β T : Type} (o : Outcome α T)
    (k : α → LinkedList T → Outcome β T) : Outcome β T :=
  match o with
  | .returned a l => k a l
  | .thrown e l => .thrown e l
  | .undefined => .undefined

/-- How a constructor or assignment operator taking `other` ends: `this` and
`other` as they are left, or undefined behaviour. -/
inductive Outcome2 (T : Type) where
  | done (this : LinkedList T) (other : LinkedList T) : Outcome2 T
  | thrown (e : Exception) (this : LinkedList T) (other : LinkedList T) : Outcome2 T
  | undefined : Outcome2 T
deriving DecidableEq

variable {T : Type}

/-- The default constructor `LinkedList()`. -/
def LinkedList.empty : LinkedList T :=
  { sizeOfList := 0, head := [], tail := .null }

/-- The member `isEmpty()`: `head == nullptr`. -/
def isEmpty (l : LinkedList T) : Bool :=
  l.head.isEmpty

/-- The member `size()`. -/
def size (l : LinkedList T) : Nat :=
  l.sizeOfList

/-- The member `pushFront(value)`. -/
def pushFront (l : LinkedList T) (value : T) : LinkedList T :=
  { sizeOfList := incSize l.sizeOfList
    head := value :: l.head
    tail :=
      match l.tail with
      | .null => .node 0
      | t => t.afterLinkFront }

/-- The member `pushBack(value)`. With a non-empty chain the write
`tail->next = newNode` goes through `tail`; the nodes that were behind `tail`
are no longer reachable from `head`. -/
def pushBack (l : LinkedList T) (value : T) : Outcome Unit T :=
  match l.head with
  | [] =>
    .returned () { sizeOfList := incSize l.sizeOfList, head := [value], tail := .node 0 }
  | _ :: _ =>
    match l.tail with
    | .node t =>
      if t < l.head.length then
        .returned ()
          { sizeOfList := incSize l.sizeOfList
            head := l.head.take (t + 1) ++ [value]
            tail := .node (t + 1) }
      else .undefined
    | _ => .undefined

/-- The member `popFront()`. -/
def popFront (l : LinkedList T) : Outcome T T :=
  match l.head with
  | [] => .thrown .runtime_error l
  | deleted :: second =>
    .returned deleted
      { sizeOfList := decSize l.sizeOfList
        head := second
        tail :=
          match second with
          | [] => .null
          | _ :: _ => l.tail.afterDelete 0 }

/-- The loop `while (currentOther != nullptr)` of the copy constructor and of
the copy assignment, over the rest of the chain of `other`. -/
def copyRest : List T → LinkedList T → Outcome Unit T
  | [], this => .returned () this
  | value :: currentOther, this =>
    (pushBack this value).andThen (fun _ this1 => copyRest currentOther this1)

/-- The copy constructor `LinkedList(const LinkedList<T>& other)`. -/
def copyConstruct (other : LinkedList T) : Outcome2 T :=
  let this : LinkedList T := { sizeOfList := other.sizeOfList, head := [], tail := .null }
  match other.head with
  | [] => .done this other
  | value :: currentOther =>
    match copyRest currentOther { this with head := [value], tail := .node 0 } with
    | .returned _ this1 => .done this1 other
    | .thrown e this1 => .thrown e this1 other
    | .undefined => .undefined

/-- The read `p->value` in a list with chain `chain`; `none` when `p` is null
or does not point to a node of the chain. -/
def derefValue (chain : List T) : NodePtr → Option T
  | .node t => chain[t]?
  | _ => none

/-- The member `front()`. -/
def front (l : LinkedList T) : Outcome T T :=
  match l.head with
  | [] => .thrown .runtime_error l
  | value :: _ => .returned value l

/-- The member `back()`. -/
def back (l : LinkedList T) : Outcome T T :=
  match l.head with
  | [] => .thrown .runtime_error l
  | _ :: _ =>
    match derefValue l.head l.tail with
    | some value => .returned value l
    | none => .undefined

/-- The loop of `operator[]`: `steps` times `tempPtr = tempPtr->next`, from
the chain at `tempPtr`; `none` when a step reads through a null pointer. -/
def advance : Nat → List T → Option (List T)
  | 0, chain => some chain
  | _ + 1, [] => none
  | steps + 1, _ :: next => advance steps next

/-- The bound `sizeOfList * (index < 0) + index` of the loop of `operator[]`,
computed in `size_t`. -/
def loopBound (sizeOfList : Nat) (index : Int) : Nat :=
  (sizeOfList * (if index < 0 then 1 else 0) % SIZE_MOD + toSizeT index) % SIZE_MOD

/-- The member `operator[](index)`, for `index` an `int`. The negation
`-int(sizeOfList)` overflows when `int(sizeOfList)` is `INT_MIN`; the counter
`i` of the loop is an `int` and overflows when the bound is above `INT_MAX`. -/
def operatorIndex (l : LinkedList T) (index : Int) : Outcome T T :=
  if toInt l.sizeOfList = INT_MIN then .undefined
  else if index < -(toInt l.sizeOfList) ∨ index ≥ toInt l.sizeOfList then
    .thrown .out_of_range l
  else if (loopBound l.sizeOfList index : Int) > INT_MAX then .undefined
  else
    match advance (loopBound l.sizeOfList index) l.head with
    | some (value :: _) => .returned value l
    | _ => .undefined

/-- The loop of `find`, with `tempPtr` at position `k` and `chain` the nodes
from `tempPtr` on: the position of the first node holding `value`. -/
def findFrom [DecidableEq T] (value : T) : Nat → List T → Option Nat
  | _, [] => none
  | k, v :: next => if v = value then some k else findFrom value (k + 1) next

/-- The member `find(value)`: the node whose value the returned pointer
refers to, `none` for `nullptr`. -/
def find [DecidableEq T] (l : LinkedList T) (value : T) : Option Nat :=
  findFrom value 0 l.head

/-- The member `contains(value)`. -/
def contains [DecidableEq T] (l : LinkedList T) (value : T) : Bool :=
  (find l value).isSome

/-- The loop `while (tempPtr->next != nullptr && tempPtr->next->value !=
valueToRemove)` of `remove`, with `tempPtr` at position `k` and `next` the
chain behind it: the position of `tempPtr` when the loop stops. -/
def removeScan [DecidableEq T] (valueToRemove : T) : Nat → List T → Nat
  | k, [] => k
  | k, v :: next => if v ≠ valueToRemove then removeScan valueToRemove (k + 1) next else k

/-- The member `remove(valueToRemove)`. -/
def remove [DecidableEq T] (l : LinkedList T) (valueToRemove : T) : Outcome Bool T :=
  match l.head with
  | [] => .returned false l
  | first :: second =>
    if first = valueToRemove then
      (popFront l).andThen (fun _ l1 => .returned true l1)
    else
      let k := removeScan valueToRemove 0 second
      match l.head.drop (k + 1) with
      | [] => .returned false l
      | _ :: after =>
        .returned true
          { sizeOfList := decSize l.sizeOfList
            head := l.head.take (k + 1) ++ after
            tail :=
              match after with
              | [] => .node k
              | _ :: _ => l.tail.afterDelete (k + 1) }

/-- The loop `while (contains(valueToRemove))` of `removeAll`. Every round
deletes a node, so `fuel` above the length of the chain is never used up. -/
def removeAllLoop [DecidableEq T] (valueToRemove : T) :
    Nat → Bool → LinkedList T → Outcome Bool T
  | 0, flag, l => .returned flag l
  | fuel + 1, flag, l =>
    if contains l valueToRemove then
      (remove l valueToRemove).andThen (fun _ l1 => removeAllLoop valueToRemove fuel true l1)
    else .returned flag l

/-- The member `removeAll(valueToRemove)`. -/
def removeAll [DecidableEq T] (l : LinkedList T) (valueToRemove : T) : Outcome Bool T :=
  removeAllLoop valueToRemove (l.head.length + 1) false l

/-- The loop `while (!isEmpty())` of `clear`. Every round deletes a node, so
`fuel` above the length of the chain is never used up. -/
def clearLoop : Nat → LinkedList T → Outcome Unit T
  | 0, l => .returned () l
  | fuel + 1, l =>
    if isEmpty l then .returned () l
    else (popFront l).andThen (fun _ l1 => clearLoop fuel l1)

/-- The member `clear()`. -/
def clear (l : LinkedList T) : Outcome Unit T :=
  clearLoop (l.head.length + 1) l

/-- The loop `while (tempPtr->next != tail)` of `popBack`, with `tempPtr` at
position `k` and `chain` the nodes from `tempPtr` on: the position of
`tempPtr` when the loop stops, `none` when `tempPtr` runs off the chain and
`tempPtr->next` is read through a null pointer. -/
def beforeTail (tail : NodePtr) : Nat → List T → Option Nat
  | _, [] => none
  | k, _ :: next =>
    let nextPtr : NodePtr :=
      match next with
      | [] => .null
      | _ :: _ => .node (k + 1)
    if nextPtr = tail then some k else beforeTail tail (k + 1) next

/-- The member `popBack()`. -/
def popBack (l : LinkedList T) : Outcome T T :=
  match l.head with
  | [] => .thrown .runtime_error l
  | first :: _ =>
    if l.tail = .node 0 then
      .returned first { sizeOfList := decSize l.sizeOfList, head := [], tail := .null }
    else
      match beforeTail l.tail 0 l.head with
      | none => .undefined
      | some k =>
        match derefValue l.head l.tail with
        | none => .undefined
        | some deleted =>
          .returned deleted
            { sizeOfList := decSize l.sizeOfList
              head := l.head.take (k + 1)
              tail := .node k }

/-- The copy assignment `operator=(const LinkedList<T>& other)`; `sameObject`
is the test `this == &other`. -/
def copyAssign (this other : LinkedList T) (sameObject : Bool) : Outcome2 T :=
  if sameObject then .done this this
  else
    match clear this with
    | .undefined => .undefined
    | .thrown e this1 => .thrown e this1 other
    | .returned _ this1 =>
      match other.head with
      | [] => .undefined
      | value :: currentOther =>
        match copyRest currentOther { this1 with head := [value], tail := .node 0 } with
        | .returned _ this2 => .done this2 other
        | .thrown e this2 => .thrown e this2 other
        | .undefined => .undefined

/-- The pointer to the last node of a chain; null for the empty chain. -/
def lastPtr : List T → NodePtr
  | [] => .null
  | _ :: rest => .node rest.length

/-- The count invariant: `sizeOfList` is the number of nodes of the chain, and
that number is a value of `size_t`. -/
def CountOk (l : LinkedList T) : Prop :=
  l.sizeOfList = l.head.length ∧ l.head.length < SIZE_MOD

/-- The tail invariant: `tail` is null for the empty chain and points to the
last node otherwise. -/
def TailOk (l : LinkedList T) : Prop :=
  l.tail = lastPtr l.head

/-- The list with elements `xs` in the state the invariants describe. -/
def ofValues (xs : List T) : LinkedList T :=
  { sizeOfList := xs.length, head := xs, tail := lastPtr xs }

/-- A list of `2 ^ 32` elements, all `0`, in the state the invariants
describe. -/
def fourGiElements : LinkedList Nat :=
  ofValues (List.replicate (2 ^ 32) 0)

/-- The loop `while (current->next)` of one pass of `sort`, with `current` on a
node holding `value` and `next` the chain behind it; `gt` is `operator>` of
`T`. The values from `current` on as the pass leaves them, and `isSwapped`. -/
def bubblePass (gt : T → T → Bool) : T → List T → Bool → List T × Bool
  | value, [], isSwapped => ([value], isSwapped)
  | value, nextValue :: next, isSwapped =>
    if gt value nextValue then
      let r := bubblePass gt value next true
      (nextValue :: r.1, r.2)
    else
      let r := bubblePass gt nextValue next isSwapped
      (value :: r.1, r.2)

/-- One round of the `do ... while (isSwapped)` loop of `sort`: `current`
starts at `head`; `none` when `head` is null and `current->next` is read
through it. -/
def sortPass (gt : T → T → Bool) : List T → Option (List T × Bool)
  | [] => none
  | value :: next => some (bubblePass gt value next false)

/-- The `do ... while (isSwapped)` loop of `sort`, for at most `fuel` rounds;
`none` when `head` is null or when `fuel` rounds all swapped. -/
def sortLoop (gt : T → T → Bool) : Nat → List T → Option (List T)
  | 0, _ => none
  | fuel + 1, chain =>
    match sortPass gt chain with
    | none => none
    | some (chain1, isSwapped) => if isSwapped then sortLoop gt fuel chain1 else some chain1

/-- The member `sort()`, with `gt` the `operator>` of `T`. The nodes stay
where they are, only their values move. The loop gets one round more than the
square of the number of nodes; with an asymmetric `gt` that is never used up.
A loop that does not end, like the read through a null `head`, is undefined
behaviour. -/
def sort (gt : T → T → Bool) (l : LinkedList T) : Outcome Unit T :=
  if l.sizeOfList < 2 then .returned () l
  else
    match sortLoop gt (l.head.length * l.head.length + 1) l.head with
    | some chain => .returned () { l with head := chain }
    | none => .undefined

/-- The number of inversions of a sequence: the pairs of positions `i < j`
whose values are out of order, `gt (s i) (s j)`. -/
def inversions (gt : T → T → Bool) : List T → Nat
  | [] => 0
  | x :: xs => xs.countP (fun y => gt x y) + inversions gt xs

/-- The `operator>` of a linearly ordered type. -/
def gtOf [LinearOrder T] (a b : T) : Bool :=
  decide (b < a)

/-- The comparison `gt` is a strict weak order: irreflexive, transitive, and
with transitive incomparability. -/
structure StrictWeakOrder (gt : T → T → Bool) : Prop where
  irrefl : ∀ a, gt a a = false
  trans : ∀ a b c, gt a b = true → gt b c = true → gt a c = true
  incomp_trans : ∀ a b c, gt a b = false → gt b a = false → gt b c = false → gt c b = false →
    gt a c = false ∧ gt c a = false

/-- Two values compare equivalent: neither is greater than the other. -/
def equivalent (gt : T → T → Bool) (a b : T) : Bool :=
  !gt a b && !gt b a

/-- A reference stable sort, after the words of the specification: insertion
sort, which puts every element in front of the first element of the sorted
rest that is not smaller than it, so that elements comparing equivalent keep
their order. -/
def referenceStableSort (gt : T → T → Bool) (s : List T) : List T :=
  List.insertionSort (fun a b => gt a b = false) s

/-- An `operator>` that is a strict weak order and not a linear order: pairs
compared by their first component. -/
def gtByFirst (a b : Nat × Nat) : Bool :=
  decide (b.1 < a.1)

/-- The move constructor `LinkedList(LinkedList<T>&& other)`: `this` takes
`sizeOfList`, `head` and `tail` of `other`, and `other` is reset. -/
def moveConstruct (other : LinkedList T) : Outcome2 T :=
  .done { sizeOfList := other.sizeOfList, head := other.head, tail := other.tail }
    { sizeOfList := 0, head := [], tail := .null }

/-- The move assignment `operator=(LinkedList<T>&& other)`; `sameObject` is
the test `this == &other`. -/
def moveAssign (this other : LinkedList T) (sameObject : Bool) : Outcome2 T :=
  if sameObject then .done this this
  else
    match clear this with
    | .undefined => .undefined
    | .thrown e this1 => .thrown e this1 other
    | .returned _ this1 =>
      .done { this1 with sizeOfList := other.sizeOfList, head := other.head, tail := other.tail }
        { other with sizeOfList := 0, head := [], tail := .null }

/-- The structural invariant of the specification: the stored count is the
number of nodes reachable from the first node (and is a value of `size_t`),
the count is `0` iff there is no first node iff there is no last node, and in
a non-empty list the last-reference is the final node of the chain. -/
def Invariant (l : LinkedList T) : Prop :=
  l.sizeOfList = l.head.length ∧ l.sizeOfList < SIZE_MOD
    ∧ (l.sizeOfList = 0 ↔ l.head = []) ∧ (l.head = [] ↔ l.tail = .null)
    ∧ (l.head ≠ [] → l.tail = .node (l.head.length - 1))

/-- The object as a call leaves it, the caller catching what the call throws;
`none` for undefined behaviour. -/
def Outcome.after {α T : Type} : Outcome α T → Option (LinkedList T)
  | .returned _ l => some l
  | .thrown _ l => some l
  | .undefined => none

/-- The mutating operations of the class. -/
inductive Op (T : Type) where
  | pushFront (value : T) : Op T
  | pushBack (value : T) : Op T
  | popFront : Op T
  | popBack : Op T
  | remove (value : T) : Op T
  | removeAll (value : T) : Op T
  | clear : Op T
  | sort : Op T

/-- Whether the operation is one of the two pushes. -/
def Op.isPush : Op T → Bool
  | .pushFront _ => true
  | .pushBack _ => true
  | _ => false

/-- One mutating operation applied to a list, with `gt` the `operator>` of
`T`. -/
def applyOp [DecidableEq T] (gt : T → T → Bool) (op : Op T) (l : LinkedList T) :
    Option (LinkedList T) :=
  match op with
  | .pushFront value => some (pushFront l value)
  | .pushBack value => (pushBack l value).after
  | .popFront => (popFront l).after
  | .popBack => (popBack l).after
  | .remove value => (remove l value).after
  | .removeAll value => (removeAll l value).after
  | .clear => (clear l).after
  | .sort => (sort gt l).after

/-- A sequence of mutating operations applied to a list, first to last. -/
def run [DecidableEq T] (gt : T → T → Bool) : List (Op T) → LinkedList T → Option (LinkedList T)
  | [], l => some l
  | op :: ops, l =>
    match applyOp gt op l with
    | some l1 => run gt ops l1
    | none => none

/-- The number of pushes in a sequence of operations. -/
def pushCount (ops : List (Op T)) : Nat :=
  ops.countP Op.isPush

/-- The number of elements one operation removes from a list whose elements
are `chain`, in the words of the specification: a pop removes one element
unless the list is empty (the call then fails), `remove` removes the first
occurrence of the value if there is one, `removeAll` removes every occurrence,
`clear` removes every element; a push and `sort` remove none. -/
def removedBy [DecidableEq T] (op : Op T) (chain : List T) : Nat :=
  match op with
  | .pushFront _ => 0
  | .pushBack _ => 0
  | .popFront => if chain = [] then 0 else 1
  | .popBack => if chain = [] then 0 else 1
  | .remove value => if value ∈ chain then 1 else 0
  | .removeAll value => chain.count value
  | .clear => chain.length
  | .sort => 0

/-- The number of elements the operations of a sequence remove when applied
to a list, first to last: the sum of `removedBy` over the operations, each
taken on the elements the list holds when the operation is called. -/
def removedCount [DecidableEq T] (gt : T → T → Bool) : List (Op T) → LinkedList T → Nat
  | [], _ => 0
  | op :: ops, l =>
    removedBy op l.head
      + (match applyOp gt op l with
        | some l1 => removedCount gt ops l1
        | none => 0)

/-- The loop `for (const T& value: list) this->pushBack(value)` of the
constructor from an initializer list. -/
def pushBackEach : List T → LinkedList T → Outcome Unit T
  | [], this => .returned () this
  | value :: list, this =>
    (pushBack this value).andThen (fun _ this1 => pushBackEach list this1)

/-- The constructor `LinkedList(const std::initializer_list<T>& list)`. -/
def initializerListConstruct (list : List T) : Outcome Unit T :=
  pushBackEach list LinkedList.empty

/-- The class `Iterator`: its `pointerToNode`. -/
structure Iterator where
  pointerToNode : NodePtr
deriving DecidableEq

/-- The member `begin()`: `Iterator(head)`. -/
def begin (l : LinkedList T) : Iterator :=
  { pointerToNode :=
      match l.head with
      | [] => .null
      | _ :: _ => .node 0 }

/-- The member `end()`: `Iterator(nullptr)`. -/
def end_ (_l : LinkedList T) : Iterator :=
  { pointerToNode := .null }

/-- The dereference `operator*` of an iterator into a list with chain `chain`;
`none` when `pointerToNode` is not on a node of the chain. -/
def Iterator.deref (chain : List T) (it : Iterator) : Option T :=
  derefValue chain it.pointerToNode

/-- The increment `operator++` of an iterator into a list with chain `chain`:
`pointerToNode = pointerToNode->next`; `none` when `pointerToNode` is not on a
node of the chain. -/
def Iterator.increment (chain : List T) (it : Iterator) : Option Iterator :=
  match it.pointerToNode with
  | .node k =>
    if k < chain.length then
      some { pointerToNode := if k + 1 < chain.length then .node (k + 1) else .null }
    else none
  | _ => none

/-- The loop `for (it = ...; it != end(); ++it)` of a caller, with the values
`*it` it visits, in order; `none` when it runs into undefined behaviour or
does not reach `end()` within `fuel` rounds. -/
def traverseFrom (l : LinkedList T) : Nat → Iterator → Option (List T)
  | 0, _ => none
  | fuel + 1, it =>
    if it = end_ l then some []
    else
      match it.deref l.head, it.increment l.head with
      | some value, some next => (traverseFrom l fuel next).map (fun visited => value :: visited)
      | _, _ => none

/-- The traversal of a list from `begin()` until the iterator equals `end()`;
one round more than there are nodes is always enough. -/
def traverse (l : LinkedList T) : Option (List T) :=
  traverseFrom l (l.head.length + 1) (begin l)

/-- The effect of `n` calls of `popFront()` in a row, the values they return
dropped. -/
def popFrontTimes : Nat → LinkedList T → Outcome Unit T
  | 0, l => .returned () l
  | n + 1, l => (popFront l).andThen (fun _ l1 => popFrontTimes n l1)

/-- A sequence of `2 ^ 32` calls `pushBack(0)`. -/
def fourGiPushes : List (Op Nat) :=
  List.replicate (2 ^ 32) (Op.pushBack 0)

/-! ## Theorems -/

theorem lastPtr_append_singleton (xs : List T) (v : T) :
    lastPtr (xs ++ [v]) = .node xs.length := by
  cases xs with
  | nil => rfl
  | cons x rest => simp [lastPtr]

theorem lastPtr_of_ne_nil {xs : List T} (h : xs ≠ []) :
    lastPtr xs = .node (xs.length - 1) := by
  cases xs with
  | nil => exact absurd rfl h
  | cons x rest => simp [lastPtr]

theorem incSize_of_lt {s : Nat} (h : s + 1 < SIZE_MOD) : incSize s = s + 1 := by
  unfold incSize
  exact Nat.mod_eq_of_lt h

theorem decSize_of_pos {s : Nat} (h0 : 0 < s) (h : s < SIZE_MOD) : decSize s = s - 1 := by
  unfold decSize
  have e : s + SIZE_MOD - 1 = (s - 1) + SIZE_MOD := by omega
  rw [e, Nat.add_mod_right]
  exact Nat.mod_eq_of_lt (by omega)

theorem decSize_incSize {s : Nat} (h : s < SIZE_MOD) : decSize (incSize s) = s := by
  unfold decSize incSize SIZE_MOD at *
  omega

/-- With `tail` on the last node, `pushBack` appends one node and moves `tail`
to it. -/
theorem pushBack_eq (l : LinkedList T) (v : T) (ht : TailOk l) :
    pushBack l v = .returned ()
      { sizeOfList := incSize l.sizeOfList
        head := l.head ++ [v]
        tail := lastPtr (l.head ++ [v]) } := by
  obtain ⟨s, chain, tl⟩ := l
  unfold TailOk at ht
  simp only at ht
  subst ht
  cases chain with
  | nil => rfl
  | cons x rest =>
    simp [pushBack, lastPtr, lastPtr_append_singleton, List.take_of_length_le]

theorem incSize_lt (s : Nat) : incSize s < SIZE_MOD :=
  Nat.mod_lt _ (by decide)

/-- The copying loop appends the rest of the chain of `other`, with one
`++sizeOfList` for every node. -/
theorem copyRest_eq (xs : List T) (this : LinkedList T) (ht : TailOk this)
    (hs : this.sizeOfList < SIZE_MOD) :
    copyRest xs this = .returned ()
      { sizeOfList := (this.sizeOfList + xs.length) % SIZE_MOD
        head := this.head ++ xs
        tail := lastPtr (this.head ++ xs) } := by
  induction xs generalizing this with
  | nil =>
    obtain ⟨s, chain, tl⟩ := this
    unfold TailOk at ht
    simp only at ht hs
    subst ht
    simp [copyRest, Nat.mod_eq_of_lt hs]
  | cons x rest ih =>
    rw [copyRest, pushBack_eq this x ht]
    simp only [Outcome.andThen]
    rw [ih _ (by simp [TailOk]) (incSize_lt _)]
    have e : (incSize this.sizeOfList + rest.length) % SIZE_MOD
        = (this.sizeOfList + (x :: rest).length) % SIZE_MOD := by
      unfold incSize
      rw [Nat.mod_add_mod, List.length_cons]
      congr 1
      omega
    simp only [e, List.append_assoc, List.singleton_append]

/-- What the copy constructor builds from a non-empty `other`: the values of
`other` in order, and a count that starts at `other.sizeOfList` and is
incremented once for every node after the first. -/
theorem copyConstruct_eq (other : LinkedList T) (v : T) (rest : List T)
    (h : other.head = v :: rest) (hs : other.sizeOfList < SIZE_MOD) :
    copyConstruct other = .done
      { sizeOfList := (other.sizeOfList + rest.length) % SIZE_MOD
        head := other.head
        tail := lastPtr other.head } other := by
  unfold copyConstruct
  simp only [h]
  rw [copyRest_eq rest { sizeOfList := other.sizeOfList, head := [v], tail := .node 0 }
    (by simp [TailOk, lastPtr]) hs]
  simp

/-- Claim C1, at the list `[1, 2]`: the copy constructor yields a list that
holds the values `1, 2` in order and leaves the source as it was, but the
`sizeOfList` of the copy is `3`, not the `2` of the source. -/
theorem copyConstruct_two_elements_size :
    copyConstruct (ofValues [1, 2]) =
        .done { sizeOfList := 3, head := [1, 2], tail := .node 1 } (ofValues [1, 2])
      ∧ size ({ sizeOfList := 3, head := [1, 2], tail := .node 1 } : LinkedList Nat)
          ≠ size (ofValues [1, 2]) := by
  constructor
  · rfl
  · decide

/-- The loop of `clear` always returns, with an empty chain. -/
theorem clearLoop_head (fuel : Nat) (l : LinkedList T) (h : l.head.length < fuel) :
    ∃ l1, clearLoop fuel l = .returned () l1 ∧ l1.head = [] := by
  induction fuel generalizing l with
  | zero => omega
  | succ fuel ih =>
    obtain ⟨s, chain, tl⟩ := l
    cases chain with
    | nil => exact ⟨{ sizeOfList := s, head := [], tail := tl }, by simp [clearLoop, isEmpty], rfl⟩
    | cons x rest =>
      have h2 : rest.length < fuel := by
        simp only [List.length_cons] at h
        omega
      simp only [clearLoop, isEmpty, List.isEmpty_cons, Bool.false_eq_true, if_false, popFront,
        Outcome.andThen]
      exact ih _ h2

/-- The member `clear()` always returns, with an empty chain. -/
theorem clear_head (l : LinkedList T) :
    ∃ l1, clear l = .returned () l1 ∧ l1.head = [] :=
  clearLoop_head _ l (Nat.lt_succ_self _)

/-- On a list that satisfies both invariants the loop of `clear` yields the
default state. -/
theorem clearLoop_of_invariants (fuel : Nat) (l : LinkedList T) (h : l.head.length < fuel)
    (hc : CountOk l) (ht : TailOk l) :
    clearLoop fuel l = .returned () LinkedList.empty := by
  induction fuel generalizing l with
  | zero => omega
  | succ fuel ih =>
    obtain ⟨s, chain, tl⟩ := l
    obtain ⟨h1, h2⟩ := hc
    simp only [TailOk] at ht
    simp only at h1 h2
    subst h1 ht
    cases chain with
    | nil => simp [clearLoop, isEmpty, LinkedList.empty, lastPtr]
    | cons x rest =>
      have h3 : rest.length < fuel := by
        simp only [List.length_cons] at h
        omega
      simp only [clearLoop, isEmpty, List.isEmpty_cons, Bool.false_eq_true, if_false, popFront,
        Outcome.andThen]
      rw [decSize_of_pos (by simp) h2]
      apply ih _ h3
      · constructor
        · simp
        · simp only [List.length_cons] at h2
          simp only
          omega
      · cases rest with
        | nil => simp [TailOk, lastPtr]
        | cons y rest2 => simp [TailOk, lastPtr, NodePtr.afterDelete]

/-- On a list that satisfies both invariants `clear()` yields the default
state. -/
theorem clear_of_invariants (l : LinkedList T) (hc : CountOk l) (ht : TailOk l) :
    clear l = .returned () LinkedList.empty :=
  clearLoop_of_invariants _ l (Nat.lt_succ_self _) hc ht

/-- What the copy assignment leaves in `this` when `this` satisfies both
invariants and `other` is a different, non-empty list: the values of `other`
in order, and a count that is incremented only for the nodes after the
first. -/
theorem copyAssign_eq (this other : LinkedList T) (v : T) (rest : List T)
    (hc : CountOk this) (ht : TailOk this) (h : other.head = v :: rest) :
    copyAssign this other false = .done
      { sizeOfList := rest.length % SIZE_MOD
        head := other.head
        tail := lastPtr other.head } other := by
  unfold copyAssign
  simp only [Bool.false_eq_true, if_false, clear_of_invariants this hc ht, h]
  have e : (LinkedList.empty : LinkedList T).sizeOfList = 0 := rfl
  rw [e, copyRest_eq rest { sizeOfList := 0, head := [v], tail := .node 0 }
    (by simp [TailOk, lastPtr]) (by simp [SIZE_MOD])]
  simp

/-- Claim C2, at the empty destination and the source `[1, 2]`: the copy
assignment leaves the values `1, 2` in the destination and the source as it
was, but the `sizeOfList` of the destination is `1`, not the `2` of the
source. -/
theorem copyAssign_two_elements_size :
    copyAssign LinkedList.empty (ofValues [1, 2]) false =
        .done { sizeOfList := 1, head := [1, 2], tail := .node 1 } (ofValues [1, 2])
      ∧ size ({ sizeOfList := 1, head := [1, 2], tail := .node 1 } : LinkedList Nat)
          ≠ size (ofValues [1, 2]) := by
  constructor
  · rfl
  · decide

/-- Claim C3, at every destination and every empty source: the copy assignment
from an empty list distinct from the destination reads `other.head->value`
through the null `head` of the source, so its behaviour is undefined. -/
theorem copyAssign_empty_source_undefined (this : LinkedList T) (s : Nat) (t : NodePtr) :
    copyAssign this { sizeOfList := s, head := [], tail := t } false = .undefined := by
  obtain ⟨l1, h1, _⟩ := clear_head this
  simp [copyAssign, h1]

theorem toInt_of_le_max {n : Nat} (h : (n : Int) ≤ INT_MAX) : toInt n = n := by
  unfold toInt
  unfold INT_MAX at h
  omega

theorem loopBound_nonneg {n : Nat} {i : Int} (h0 : 0 ≤ i) (h1 : i ≤ INT_MAX) :
    loopBound n i = i.toNat := by
  unfold loopBound toSizeT SIZE_MOD
  unfold INT_MAX at h1
  have e : ¬ i < 0 := by omega
  simp only [e, if_false, Nat.mul_zero, Nat.zero_mod, Nat.zero_add]
  omega

theorem loopBound_neg {n : Nat} {i : Int} (h0 : i < 0) (h1 : -(n : Int) ≤ i)
    (hn : (n : Int) ≤ INT_MAX) :
    loopBound n i = ((n : Int) + i).toNat := by
  unfold loopBound toSizeT SIZE_MOD
  unfold INT_MAX at hn
  simp only [h0, if_true, Nat.mul_one]
  omega

/-- The walk of `operator[]` over `k` nodes ends on the node at position `k`
when the chain has one. -/
theorem advance_of_lt (k : Nat) (chain : List T) (h : k < chain.length) :
    ∃ v next, chain[k]? = some v ∧ advance k chain = some (v :: next) := by
  induction k generalizing chain with
  | zero =>
    cases chain with
    | nil => simp at h
    | cons x rest => exact ⟨x, rest, by simp, rfl⟩
  | succ k ih =>
    cases chain with
    | nil => simp at h
    | cons x rest =>
      have h2 : k < rest.length := by simpa using h
      obtain ⟨v, next, hv, ha⟩ := ih rest h2
      exact ⟨v, next, by simpa using hv, by simpa [advance] using ha⟩

/-- Inside the valid range `operator[]` returns the value of the node at the
position its loop bound names and leaves the list as it was. -/
theorem operatorIndex_in_range (l : LinkedList T) (i : Int)
    (hc : l.sizeOfList = l.head.length) (hn : (l.head.length : Int) ≤ INT_MAX)
    (hlo : -(l.head.length : Int) ≤ i) (hhi : i ≤ (l.head.length : Int) - 1) :
    ∃ v, l.head[loopBound l.sizeOfList i]? = some v ∧ operatorIndex l i = .returned v l := by
  have hb : loopBound l.sizeOfList i < l.head.length := by
    rw [hc]
    by_cases h0 : 0 ≤ i
    · rw [loopBound_nonneg h0 (by omega)]
      omega
    · rw [loopBound_neg (by omega) hlo hn]
      omega
  obtain ⟨v, next, hv, ha⟩ := advance_of_lt _ _ hb
  refine ⟨v, hv, ?_⟩
  have h1 : toInt l.sizeOfList ≠ INT_MIN := by
    rw [hc, toInt_of_le_max hn]
    unfold INT_MIN
    omega
  have h2 : ¬ (i < -(toInt l.sizeOfList) ∨ i ≥ toInt l.sizeOfList) := by
    rw [hc, toInt_of_le_max hn]
    omega
  have h3 : ¬ ((loopBound l.sizeOfList i : Int) > INT_MAX) := by
    omega
  unfold operatorIndex
  rw [if_neg h1, if_neg h2, if_neg h3, ha]

/-- Outside the valid range `operator[]` throws `out_of_range` and leaves the
list as it was. -/
theorem operatorIndex_outside (l : LinkedList T) (i : Int)
    (hc : l.sizeOfList = l.head.length) (hn : (l.head.length : Int) ≤ INT_MAX)
    (hout : i < -(l.head.length : Int) ∨ i > (l.head.length : Int) - 1) :
    operatorIndex l i = .thrown .out_of_range l := by
  have h1 : toInt l.sizeOfList ≠ INT_MIN := by
    rw [hc, toInt_of_le_max hn]
    unfold INT_MIN
    omega
  have h2 : i < -(toInt l.sizeOfList) ∨ i ≥ toInt l.sizeOfList := by
    rw [hc, toInt_of_le_max hn]
    omega
  unfold operatorIndex
  rw [if_neg h1, if_pos h2]

/-- Claim C4: on a list of `n` elements with `n` within the range of `int`,
for every index `i` with `-n ≤ i ≤ n - 1`, the loop bound of `operator[]`
computed in `size_t` is the position `i` when `i ≥ 0` and `n + i` when `i < 0`,
`operator[]` returns the element at that position and leaves the list as it
was, and for `i ≥ 0` the calls with `i` and with `i - n` give the same
result. -/
theorem operatorIndex_position (l : LinkedList T) (i : Int)
    (hc : l.sizeOfList = l.head.length) (hn : (l.head.length : Int) ≤ INT_MAX)
    (hlo : -(l.head.length : Int) ≤ i) (hhi : i ≤ (l.head.length : Int) - 1) :
    loopBound l.sizeOfList i = (if 0 ≤ i then i else (l.head.length : Int) + i).toNat
      ∧ (∃ v, l.head[(if 0 ≤ i then i else (l.head.length : Int) + i).toNat]? = some v
          ∧ operatorIndex l i = .returned v l)
      ∧ (0 ≤ i → operatorIndex l i = operatorIndex l (i - (l.head.length : Int))) := by
  have hpos : loopBound l.sizeOfList i
      = (if 0 ≤ i then i else (l.head.length : Int) + i).toNat := by
    rw [hc]
    by_cases h0 : 0 ≤ i
    · rw [if_pos h0, loopBound_nonneg h0 (by omega)]
    · rw [if_neg h0, loopBound_neg (by omega) hlo hn]
  refine ⟨hpos, ?_, ?_⟩
  · obtain ⟨v, hv, hr⟩ := operatorIndex_in_range l i hc hn hlo hhi
    exact ⟨v, by rw [← hpos]; exact hv, hr⟩
  · intro h0
    obtain ⟨v, hv, hr⟩ := operatorIndex_in_range l i hc hn hlo hhi
    obtain ⟨w, hw, hr2⟩ := operatorIndex_in_range l (i - (l.head.length : Int)) hc hn
      (by omega) (by omega)
    have e : loopBound l.sizeOfList (i - (l.head.length : Int)) = loopBound l.sizeOfList i := by
      rw [hc, loopBound_nonneg h0 (by omega), loopBound_neg (by omega) (by omega) hn]
      omega
    rw [e, hv] at hw
    rw [hr, hr2]
    cases hw
    rfl

theorem operatorIndex_position_witness :
    (ofValues [10, 20, 30]).sizeOfList = (ofValues [10, 20, 30]).head.length
      ∧ (((ofValues [10, 20, 30]).head.length : Nat) : Int) ≤ INT_MAX
      ∧ -(((ofValues [10, 20, 30]).head.length : Nat) : Int) ≤ (-1 : Int)
      ∧ (-1 : Int) ≤ (((ofValues [10, 20, 30]).head.length : Nat) : Int) - 1
      ∧ (loopBound (ofValues [10, 20, 30]).sizeOfList (-1)
            = (if 0 ≤ (-1 : Int) then (-1 : Int)
                else (((ofValues [10, 20, 30]).head.length : Nat) : Int) + (-1 : Int)).toNat
          ∧ (∃ v, (ofValues [10, 20, 30]).head[(if 0 ≤ (-1 : Int) then (-1 : Int)
                else (((ofValues [10, 20, 30]).head.length : Nat) : Int) + (-1 : Int)).toNat]?
                  = some v
              ∧ operatorIndex (ofValues [10, 20, 30]) (-1) = .returned v (ofValues [10, 20, 30]))
          ∧ (0 ≤ (-1 : Int) → operatorIndex (ofValues [10, 20, 30]) (-1)
              = operatorIndex (ofValues [10, 20, 30])
                  ((-1 : Int) - (((ofValues [10, 20, 30]).head.length : Nat) : Int)))) :=
  ⟨by decide, by decide, by decide, by decide,
    operatorIndex_position (ofValues [10, 20, 30]) (-1) (by decide) (by decide) (by decide)
      (by decide)⟩

theorem fourGiElements_sizeOfList : fourGiElements.sizeOfList = 2 ^ 32 :=
  List.length_replicate _ _

theorem fourGiElements_length : fourGiElements.head.length = 2 ^ 32 :=
  List.length_replicate _ _

theorem operatorIndex_fourGiElements :
    operatorIndex fourGiElements 0 = .thrown .out_of_range fourGiElements := by
  have e : toInt fourGiElements.sizeOfList = 0 := by
    rw [fourGiElements_sizeOfList]
    decide
  unfold operatorIndex
  rw [e]
  simp [INT_MIN]

/-- Claim C5, as stated, fails on a list of `2 ^ 32` elements: there
`int(sizeOfList)` is `0`, so `operator[]` throws `out_of_range` at index `0`,
which lies inside `[-n, n - 1]`. The list satisfies the count invariant. -/
theorem operatorIndex_range_counterexample :
    CountOk fourGiElements
      ∧ ¬ ((∃ post, operatorIndex fourGiElements 0 = .thrown .out_of_range post)
            ↔ ((0 : Int) < -(fourGiElements.head.length : Int)
                ∨ (0 : Int) > (fourGiElements.head.length : Int) - 1)) := by
  constructor
  · constructor
    · rw [fourGiElements_sizeOfList, fourGiElements_length]
    · rw [fourGiElements_length]
      decide
  · intro h
    have h2 := h.mp ⟨_, operatorIndex_fourGiElements⟩
    rw [fourGiElements_length] at h2
    omega

/-- Claim C5, amended: on a list of `n` elements with `n` within the range of
`int`, for every index `i`, `operator[]` throws `out_of_range` if and only if
`i < -n` or `i > n - 1`; it throws nothing else, a call that throws leaves the
list as it was, and on the empty list every index throws `out_of_range`. -/
theorem operatorIndex_throws_iff (l : LinkedList T) (i : Int)
    (hc : l.sizeOfList = l.head.length) (hn : (l.head.length : Int) ≤ INT_MAX) :
    ((∃ post, operatorIndex l i = .thrown .out_of_range post)
        ↔ (i < -(l.head.length : Int) ∨ i > (l.head.length : Int) - 1))
      ∧ (∀ e post, operatorIndex l i = .thrown e post → e = .out_of_range ∧ post = l)
      ∧ (l.head = [] → operatorIndex l i = .thrown .out_of_range l) := by
  by_cases hout : i < -(l.head.length : Int) ∨ i > (l.head.length : Int) - 1
  · have hr := operatorIndex_outside l i hc hn hout
    refine ⟨⟨fun _ => hout, fun _ => ⟨l, hr⟩⟩, ?_, fun _ => hr⟩
    intro e post h
    rw [hr] at h
    cases h
    exact ⟨rfl, rfl⟩
  · obtain ⟨v, _, hr⟩ := operatorIndex_in_range l i hc hn (by omega) (by omega)
    refine ⟨⟨?_, fun h => absurd h hout⟩, ?_, ?_⟩
    · rintro ⟨post, h⟩
      rw [hr] at h
      cases h
    · intro e post h
      rw [hr] at h
      cases h
    · intro hnil
      rw [hnil] at hout
      simp only [List.length_nil, Nat.cast_zero] at hout
      omega

theorem operatorIndex_throws_iff_witness :
    (ofValues [10, 20, 30]).sizeOfList = (ofValues [10, 20, 30]).head.length
      ∧ (((ofValues [10, 20, 30]).head.length : Nat) : Int) ≤ INT_MAX
      ∧ (((∃ post, operatorIndex (ofValues [10, 20, 30]) 3 = .thrown .out_of_range post)
          ↔ ((3 : Int) < -(((ofValues [10, 20, 30]).head.length : Nat) : Int)
              ∨ (3 : Int) > (((ofValues [10, 20, 30]).head.length : Nat) : Int) - 1))
        ∧ (∀ e post, operatorIndex (ofValues [10, 20, 30]) 3 = .thrown e post →
            e = .out_of_range ∧ post = ofValues [10, 20, 30])
        ∧ ((ofValues [10, 20, 30]).head = [] →
            operatorIndex (ofValues [10, 20, 30]) 3
              = .thrown .out_of_range (ofValues [10, 20, 30]))) :=
  ⟨by decide, by decide, operatorIndex_throws_iff (ofValues [10, 20, 30]) 3 (by decide)
    (by decide)⟩

/-- Claim C6: on a list whose `sizeOfList` is the number of its nodes, each of
`front`, `back`, `popFront` and `popBack` throws the empty-container error
(`runtime_error`) if and only if `size()` is `0`; it throws nothing else, and a
call that throws leaves the list as it was, still empty and of size `0`. -/
theorem empty_container_error_iff (l : LinkedList T) (hc : l.sizeOfList = l.head.length) :
    ∀ op ∈ [front, back, popFront, popBack],
      ((∃ post, op l = .thrown .runtime_error post) ↔ size l = 0)
        ∧ (∀ e post, op l = .thrown e post →
            e = .runtime_error ∧ post = l ∧ isEmpty post = true ∧ size post = 0) := by
  intro op hop
  obtain ⟨s, chain, tl⟩ := l
  simp only at hc
  subst hc
  simp only [List.mem_cons, List.mem_singleton, List.not_mem_nil, or_false] at hop
  cases chain with
  | nil =>
    have e : op { sizeOfList := ([] : List T).length, head := [], tail := tl }
        = .thrown .runtime_error { sizeOfList := ([] : List T).length, head := [], tail := tl } := by
      rcases hop with h | h | h | h <;> subst h <;> rfl
    rw [e]
    refine ⟨⟨fun _ => rfl, fun _ => ⟨_, rfl⟩⟩, ?_⟩
    intro e1 post h
    cases h
    exact ⟨rfl, rfl, rfl, rfl⟩
  | cons x rest =>
    have e : ∀ e1 post, op { sizeOfList := (x :: rest).length, head := x :: rest, tail := tl }
        ≠ .thrown e1 post := by
      intro e1 post
      rcases hop with h | h | h | h <;> subst h
      · simp [front]
      · simp only [back]
        cases derefValue (x :: rest) tl <;> simp
      · simp [popFront]
      · simp only [popBack]
        split
        · simp
        · cases beforeTail tl 0 (x :: rest) with
          | none => simp
          | some k => cases derefValue (x :: rest) tl <;> simp
    refine ⟨⟨?_, ?_⟩, ?_⟩
    · rintro ⟨post, h⟩
      exact absurd h (e _ _)
    · intro h
      simp [size] at h
    · intro e1 post h
      exact absurd h (e _ _)

theorem empty_container_error_iff_witness :
    (LinkedList.empty : LinkedList Nat).sizeOfList = (LinkedList.empty : LinkedList Nat).head.length
      ∧ ∀ op ∈ [front, back, popFront, popBack],
          ((∃ post, op (LinkedList.empty : LinkedList Nat) = .thrown .runtime_error post)
              ↔ size (LinkedList.empty : LinkedList Nat) = 0)
            ∧ (∀ e post, op (LinkedList.empty : LinkedList Nat) = .thrown e post →
                e = .runtime_error ∧ post = LinkedList.empty ∧ isEmpty post = true
                  ∧ size post = 0) :=
  ⟨rfl, empty_container_error_iff LinkedList.empty rfl⟩

theorem beforeTail_cons_cons (t : NodePtr) (k : Nat) (a b : T) (rest : List T) :
    beforeTail t k (a :: b :: rest)
      = if NodePtr.node (k + 1) = t then some k else beforeTail t (k + 1) (b :: rest) :=
  rfl

/-- The loop of `popBack` stops on the node before the last one when `tail`
points to the last node of a chain of two nodes or more. -/
theorem beforeTail_last (k : Nat) (xs : List T) (a v : T) :
    beforeTail (.node (k + (a :: xs).length)) k (a :: xs ++ [v]) = some (k + xs.length) := by
  induction xs generalizing k a with
  | nil => simp [beforeTail]
  | cons b rest ih =>
    have hne : ¬ (NodePtr.node (k + 1) = NodePtr.node (k + (a :: b :: rest).length)) := by
      simp only [List.length_cons, NodePtr.node.injEq]
      omega
    have e : k + (a :: b :: rest).length = (k + 1) + (b :: rest).length := by
      simp only [List.length_cons]
      omega
    rw [List.cons_append, List.cons_append, beforeTail_cons_cons, if_neg hne, e,
      ← List.cons_append, ih (k + 1) b]
    simp only [List.length_cons]
    congr 1
    omega

/-- On a list whose `tail` is on the last node, `popBack` after `pushBack`
gives the pushed value back and restores the list. -/
theorem popBack_pushBack (l : LinkedList T) (v : T) (ht : TailOk l)
    (hs : l.sizeOfList < SIZE_MOD) :
    (pushBack l v).andThen (fun _ l1 => popBack l1) = .returned v l := by
  rw [pushBack_eq l v ht]
  obtain ⟨s, chain, tl⟩ := l
  simp only [TailOk] at ht
  simp only at hs
  subst ht
  simp only [Outcome.andThen]
  cases chain with
  | nil => simp [popBack, lastPtr, decSize_incSize hs]
  | cons a xs =>
    have hb := beforeTail_last 0 xs a v
    simp only [Nat.zero_add] at hb
    have hd : derefValue (a :: xs ++ [v]) (.node (a :: xs).length) = some v := by
      simp [derefValue]
    have ht0 : (NodePtr.node (a :: xs).length) ≠ .node 0 := by
      simp
    have hl := lastPtr_append_singleton (a :: xs) v
    simp only [List.cons_append] at hb hd hl
    simp only [popBack, List.cons_append, hl, if_neg ht0, hb, hd]
    simp [decSize_incSize hs, lastPtr]

/-- On a list whose `tail` is on the last node, `popFront` after `pushFront`
gives the pushed value back and restores the list. -/
theorem popFront_pushFront (l : LinkedList T) (v : T) (ht : TailOk l)
    (hs : l.sizeOfList < SIZE_MOD) :
    popFront (pushFront l v) = .returned v l := by
  obtain ⟨s, chain, tl⟩ := l
  simp only [TailOk] at ht
  simp only at hs
  subst ht
  cases chain with
  | nil => simp [popFront, pushFront, lastPtr, decSize_incSize hs]
  | cons a xs =>
    simp [popFront, pushFront, lastPtr, decSize_incSize hs, NodePtr.afterLinkFront,
      NodePtr.afterDelete]

/-- Claim C7: on a list whose `tail` is on its last node (as every list built
by the mutating operations has it), `pushBack(v)` followed by `popBack()`
returns `v` and leaves the list exactly as it was before the push: same
`sizeOfList`, same elements in the same order, same `tail`; and so does
`pushFront(v)` followed by `popFront()`. -/
theorem push_pop_inverse (l : LinkedList T) (v : T) (ht : TailOk l)
    (hs : l.sizeOfList < SIZE_MOD) :
    (pushBack l v).andThen (fun _ l1 => popBack l1) = .returned v l
      ∧ popFront (pushFront l v) = .returned v l :=
  ⟨popBack_pushBack l v ht hs, popFront_pushFront l v ht hs⟩

theorem push_pop_inverse_witness :
    TailOk (ofValues [1, 2, 3]) ∧ (ofValues [1, 2, 3]).sizeOfList < SIZE_MOD
      ∧ ((pushBack (ofValues [1, 2, 3]) 7).andThen (fun _ l1 => popBack l1)
            = .returned 7 (ofValues [1, 2, 3])
          ∧ popFront (pushFront (ofValues [1, 2, 3]) 7) = .returned 7 (ofValues [1, 2, 3])) :=
  ⟨rfl, by decide, push_pop_inverse (ofValues [1, 2, 3]) 7 rfl (by decide)⟩

/-- Claim C8: on a list with element sequence `s` whose `tail` is on its last
node and whose count can be incremented within `size_t`, `pushFront(v)` yields
the sequence `v` followed by `s`, `pushBack(v)` returns and yields `s` followed
by `v`, and each makes `size()` larger by exactly one. -/
theorem push_postconditions (l : LinkedList T) (v : T) (ht : TailOk l)
    (hs : l.sizeOfList + 1 < SIZE_MOD) :
    (pushFront l v).head = v :: l.head
      ∧ size (pushFront l v) = size l + 1
      ∧ ∃ l1, pushBack l v = .returned () l1 ∧ l1.head = l.head ++ [v]
          ∧ size l1 = size l + 1 := by
  refine ⟨rfl, incSize_of_lt hs, ?_⟩
  rw [pushBack_eq l v ht]
  exact ⟨_, rfl, rfl, incSize_of_lt hs⟩

theorem push_postconditions_witness :
    TailOk (ofValues [1, 2, 3]) ∧ (ofValues [1, 2, 3]).sizeOfList + 1 < SIZE_MOD
      ∧ ((pushFront (ofValues [1, 2, 3]) 7).head = 7 :: (ofValues [1, 2, 3]).head
          ∧ size (pushFront (ofValues [1, 2, 3]) 7) = size (ofValues [1, 2, 3]) + 1
          ∧ ∃ l1, pushBack (ofValues [1, 2, 3]) 7 = .returned () l1
              ∧ l1.head = (ofValues [1, 2, 3]).head ++ [7]
              ∧ size l1 = size (ofValues [1, 2, 3]) + 1) :=
  ⟨rfl, by decide, push_postconditions (ofValues [1, 2, 3]) 7 rfl (by decide)⟩

/-- The scan of `remove` runs to the end of a chain that does not hold the
value. -/
theorem removeScan_not_mem [DecidableEq T] (v : T) (xs : List T) (k : Nat) (h : v ∉ xs) :
    removeScan v k xs = k + xs.length := by
  induction xs generalizing k with
  | nil => rfl
  | cons x rest ih =>
    have hx : x ≠ v := fun e => h (by simp [e])
    have hr : v ∉ rest := fun e => h (by simp [e])
    simp only [removeScan, hx, ne_eq, not_false_eq_true, if_true, ih (k + 1) hr,
      List.length_cons]
    omega

/-- The scan of `remove` stops in front of the first node that holds the
value: the chain splits there into the nodes passed, that node, and the
rest. -/
theorem removeScan_mem [DecidableEq T] (v : T) (xs : List T) (k : Nat) (h : v ∈ xs) :
    ∃ pre post, xs = pre ++ v :: post ∧ v ∉ pre ∧ removeScan v k xs = k + pre.length := by
  induction xs generalizing k with
  | nil => simp at h
  | cons x rest ih =>
    by_cases hx : x = v
    · subst hx
      exact ⟨[], rest, rfl, by simp, by simp [removeScan]⟩
    · have hr : v ∈ rest := by
        rcases List.mem_cons.mp h with e | e
        · exact absurd e.symm hx
        · exact e
      obtain ⟨pre, post, e1, e2, e3⟩ := ih (k + 1) hr
      refine ⟨x :: pre, post, by simp [e1], ?_, ?_⟩
      · simp only [List.mem_cons, not_or]
        exact ⟨fun e => hx e.symm, e2⟩
      · simp only [removeScan, hx, ne_eq, not_false_eq_true, if_true, e3, List.length_cons]
        omega

/-- A list without the value is left as it is by `remove`, which returns
`false`. -/
theorem remove_not_mem [DecidableEq T] (l : LinkedList T) (v : T) (h : v ∉ l.head) :
    remove l v = .returned false l := by
  obtain ⟨s, chain, tl⟩ := l
  simp only at h
  cases chain with
  | nil => rfl
  | cons first second =>
    have hx : first ≠ v := fun e => h (by simp [e])
    have hr : v ∉ second := fun e => h (by simp [e])
    simp only [remove, hx, if_false, removeScan_not_mem v second 0 hr, Nat.zero_add,
      List.drop_succ_cons, List.drop_length]

/-- What `remove` does to a list whose chain splits into `pre`, a node holding
the value, and `post`, with no node of `pre` holding the value. -/
theorem remove_split [DecidableEq T] (l : LinkedList T) (v : T) (pre post : List T)
    (hsplit : l.head = pre ++ v :: post) (hpre : v ∉ pre) :
    ∃ t, remove l v = .returned true
      { sizeOfList := decSize l.sizeOfList, head := pre ++ post, tail := t } := by
  obtain ⟨s, chain, tl⟩ := l
  simp only at hsplit
  subst hsplit
  cases pre with
  | nil =>
    refine ⟨(match post with
      | [] => NodePtr.null
      | _ :: _ => NodePtr.afterDelete 0 tl), ?_⟩
    simp [remove, popFront, Outcome.andThen]
  | cons first pre2 =>
    have hx : first ≠ v := fun e => hpre (by simp [e])
    have hr : v ∉ pre2 := fun e => hpre (by simp [e])
    obtain ⟨pre3, post3, e1, e2, e3⟩ :=
      removeScan_mem v (pre2 ++ v :: post) 0 (by simp)
    have hlen : pre3 = pre2 ∧ post3 = post := by
      have key : ∀ (a b c d : List T), a ++ v :: b = c ++ v :: d → v ∉ a → v ∉ c →
          a = c ∧ b = d := by
        intro a
        induction a with
        | nil =>
          intro b c d h _ hc
          cases c with
          | nil => simpa using h
          | cons y c2 =>
            simp only [List.nil_append, List.cons_append, List.cons.injEq] at h
            exact absurd (by simp [h.1]) hc
        | cons x a2 iha =>
          intro b c d h ha hc
          cases c with
          | nil =>
            simp only [List.nil_append, List.cons_append, List.cons.injEq] at h
            exact absurd (by simp [h.1]) ha
          | cons y c2 =>
            simp only [List.cons_append, List.cons.injEq] at h
            obtain ⟨r1, r2⟩ := iha b c2 d h.2 (fun e => ha (by simp [e]))
              (fun e => hc (by simp [e]))
            exact ⟨by rw [h.1, r1], r2⟩
      exact key pre3 post3 pre2 post e1.symm e2 hr
    obtain ⟨rfl, rfl⟩ := hlen
    simp only [Nat.zero_add] at e3
    refine ⟨(match post3 with
      | [] => NodePtr.node pre3.length
      | _ :: _ => NodePtr.afterDelete (pre3.length + 1) tl), ?_⟩
    simp only [remove, List.cons_append, hx, if_false, e3, List.drop_succ_cons,
      List.drop_left, List.take_succ_cons, List.take_left]
    cases post3 <;> rfl

/-- The result of `remove` on a list that satisfies the count invariant. -/
theorem remove_eq [DecidableEq T] (l : LinkedList T) (v : T) (hc : CountOk l) :
    ∃ l1, remove l v = .returned (decide (v ∈ l.head)) l1
      ∧ (v ∉ l.head → l1 = l)
      ∧ (v ∈ l.head → ∃ pre post, l.head = pre ++ v :: post ∧ v ∉ pre
          ∧ l1.head = pre ++ post ∧ l1.head = l.head.erase v
          ∧ l1.sizeOfList + 1 = l.sizeOfList)
      ∧ CountOk l1 := by
  by_cases h : v ∈ l.head
  · obtain ⟨pre, post, e1, e2, _⟩ := removeScan_mem v l.head 0 h
    obtain ⟨t, ht⟩ := remove_split l v pre post e1 e2
    obtain ⟨h1, h2⟩ := hc
    have hlen : l.head.length = pre.length + post.length + 1 := by
      rw [e1]
      simp only [List.length_append, List.length_cons]
      omega
    have hd : decSize l.sizeOfList = l.sizeOfList - 1 :=
      decSize_of_pos (by omega) (by omega)
    have herase : l.head.erase v = pre ++ post := by
      rw [e1, List.erase_append_right _ e2, List.erase_cons_head]
    refine ⟨{ sizeOfList := decSize l.sizeOfList, head := pre ++ post, tail := t },
      by rw [ht]; simp [h], fun hn => absurd h hn, fun _ => ?_, ?_⟩
    · exact ⟨pre, post, e1, e2, rfl, herase.symm, by simp only [hd]; omega⟩
    · constructor
      · simp only [hd, List.length_append]
        omega
      · simp only [List.length_append]
        omega
  · refine ⟨l, by rw [remove_not_mem l v h]; simp [h], fun _ => rfl, fun hm => absurd hm h, hc⟩

/-- Claim C9: on a list with element sequence `s` whose `sizeOfList` is the
length of `s`, `remove(v)` returns `true` if and only if `v` occurs in `s`;
when it does, the new sequence is `s` without its front-most element equal to
`v` (`s` is `pre`, `v`, `post` with no `v` in `pre`, and the new sequence is
`pre`, `post`), and `size()` is one less; when it does not, the list is as it
was. On `[1, 2, 3, 2]`, `remove(2)` yields `[1, 3, 2]`. -/
theorem remove_first_occurrence [DecidableEq T] (l : LinkedList T) (v : T) (hc : CountOk l) :
    (∃ l1, remove l v = .returned (decide (v ∈ l.head)) l1
        ∧ (v ∉ l.head → l1 = l)
        ∧ (v ∈ l.head → ∃ pre post, l.head = pre ++ v :: post ∧ v ∉ pre
            ∧ l1.head = pre ++ post ∧ l1.head = l.head.erase v
            ∧ size l1 + 1 = size l))
      ∧ remove (ofValues [1, 2, 3, 2]) 2 = .returned true (ofValues [1, 3, 2]) := by
  obtain ⟨l1, h1, h2, h3, _⟩ := remove_eq l v hc
  exact ⟨⟨l1, h1, h2, h3⟩, rfl⟩

theorem remove_first_occurrence_witness :
    CountOk (ofValues [1, 2, 3, 2])
      ∧ ((∃ l1, remove (ofValues [1, 2, 3, 2]) 2
              = .returned (decide (2 ∈ (ofValues [1, 2, 3, 2]).head)) l1
            ∧ (2 ∉ (ofValues [1, 2, 3, 2]).head → l1 = ofValues [1, 2, 3, 2])
            ∧ (2 ∈ (ofValues [1, 2, 3, 2]).head →
                ∃ pre post, (ofValues [1, 2, 3, 2]).head = pre ++ 2 :: post ∧ 2 ∉ pre
                  ∧ l1.head = pre ++ post ∧ l1.head = (ofValues [1, 2, 3, 2]).head.erase 2
                  ∧ size l1 + 1 = size (ofValues [1, 2, 3, 2])))
          ∧ remove (ofValues [1, 2, 3, 2]) 2 = .returned true (ofValues [1, 3, 2])) :=
  ⟨⟨rfl, by decide⟩, remove_first_occurrence (ofValues [1, 2, 3, 2]) 2 ⟨rfl, by decide⟩⟩

theorem findFrom_eq_none_iff [DecidableEq T] (v : T) (k : Nat) (xs : List T) :
    findFrom v k xs = none ↔ v ∉ xs := by
  induction xs generalizing k with
  | nil => simp [findFrom]
  | cons x rest ih =>
    by_cases hx : x = v
    · simp [findFrom, hx]
    · have hx2 : ¬ v = x := fun e => hx e.symm
      simp [findFrom, hx, hx2, ih (k + 1)]

/-- The member `contains(value)` tells whether the value occurs in the
chain. -/
theorem contains_iff [DecidableEq T] (l : LinkedList T) (v : T) :
    contains l v = true ↔ v ∈ l.head := by
  unfold contains find
  rw [← not_iff_not, ← findFrom_eq_none_iff v 0 l.head]
  cases findFrom v 0 l.head <;> simp

theorem filter_ne_split [DecidableEq T] (v : T) (pre post : List T) :
    (pre ++ v :: post).filter (fun x => decide (x ≠ v))
      = (pre ++ post).filter (fun x => decide (x ≠ v)) := by
  simp [List.filter_append, List.filter_cons]

/-- One pass of `sort` rearranges the values it walks over. -/
theorem bubblePass_perm (gt : T → T → Bool) (v : T) (rest : List T) (f : Bool) :
    (bubblePass gt v rest f).1.Perm (v :: rest) := by
  induction rest generalizing v f with
  | nil => simp [bubblePass]
  | cons n rest ih =>
    by_cases h : gt v n = true
    · simp only [bubblePass, h, if_true]
      exact ((ih v true).cons n).trans (List.Perm.swap v n rest)
    · simp only [bubblePass, h, if_false]
      exact (ih n f).cons v

/-- Once `isSwapped` is set, a pass leaves it set. -/
theorem bubblePass_flag_true (gt : T → T → Bool) (v : T) (rest : List T) :
    (bubblePass gt v rest true).2 = true := by
  induction rest generalizing v with
  | nil => rfl
  | cons n rest ih =>
    by_cases h : gt v n = true
    · simp only [bubblePass, h, if_true]
      exact ih v
    · simp only [bubblePass, h, if_false]
      exact ih n

/-- A pass never adds inversions, and a pass that sets `isSwapped` removes at
least one, when `gt` is asymmetric. -/
theorem bubblePass_inversions (gt : T → T → Bool)
    (hasym : ∀ a b, gt a b = true → gt b a = false) (v : T) (rest : List T) (f : Bool) :
    inversions gt (bubblePass gt v rest f).1 ≤ inversions gt (v :: rest)
      ∧ ((bubblePass gt v rest f).2 = true →
          f = true ∨ inversions gt (bubblePass gt v rest f).1 < inversions gt (v :: rest)) := by
  induction rest generalizing v f with
  | nil =>
    simp only [bubblePass, le_refl, true_and]
    intro h
    exact Or.inl h
  | cons n rest ih =>
    by_cases h : gt v n = true
    · have hnv : gt n v = false := hasym v n h
      obtain ⟨i1, _⟩ := ih v true
      have hc : (bubblePass gt v rest true).1.countP (fun y => gt n y)
          = rest.countP (fun y => gt n y) := by
        rw [(bubblePass_perm gt v rest true).countP_eq]
        simp [List.countP_cons, hnv]
      have hlt : inversions gt (n :: (bubblePass gt v rest true).1)
          < inversions gt (v :: n :: rest) := by
        simp only [inversions, hc, List.countP_cons, h, if_true] at i1 ⊢
        omega
      simp only [bubblePass, h, if_true]
      exact ⟨Nat.le_of_lt hlt, fun _ => Or.inr hlt⟩
    · obtain ⟨i1, i2⟩ := ih n f
      have hc : (bubblePass gt n rest f).1.countP (fun y => gt v y)
          = (n :: rest).countP (fun y => gt v y) :=
        (bubblePass_perm gt n rest f).countP_eq _
      simp only [bubblePass, h, if_false]
      constructor
      · simp only [inversions, hc] at i1 ⊢
        omega
      · intro hs
        rcases i2 hs with e | e
        · exact Or.inl e
        · right
          simp only [inversions, hc] at e ⊢
          omega

/-- A pass that leaves `isSwapped` unset has found every adjacent pair in
order and has changed nothing. -/
theorem bubblePass_not_swapped (gt : T → T → Bool) (v : T) (rest : List T) (f : Bool)
    (h : (bubblePass gt v rest f).2 = false) :
    (bubblePass gt v rest f).1 = v :: rest
      ∧ List.Chain (fun a b => gt a b = false) v rest := by
  induction rest generalizing v f with
  | nil => exact ⟨rfl, List.Chain.nil⟩
  | cons n rest ih =>
    by_cases hg : gt v n = true
    · simp only [bubblePass, hg, if_true] at h
      rw [bubblePass_flag_true] at h
      cases h
    · have hg2 : gt v n = false := by simpa using hg
      simp only [bubblePass, hg2, Bool.false_eq_true, if_false] at h ⊢
      obtain ⟨e1, e2⟩ := ih n f h
      exact ⟨by rw [e1], List.Chain.cons hg2 e2⟩

/-- On values whose adjacent pairs are all in order a pass swaps nothing. -/
theorem bubblePass_of_chain (gt : T → T → Bool) (v : T) (rest : List T) (f : Bool)
    (h : List.Chain (fun a b => gt a b = false) v rest) :
    bubblePass gt v rest f = (v :: rest, f) := by
  induction rest generalizing v with
  | nil => rfl
  | cons n rest ih =>
    cases h with
    | cons h1 h2 =>
      simp only [bubblePass, h1, Bool.false_eq_true, if_false, ih n h2]

theorem inversions_le_sq (gt : T → T → Bool) (xs : List T) :
    inversions gt xs ≤ xs.length * xs.length := by
  induction xs with
  | nil => simp [inversions]
  | cons x xs ih =>
    have h := List.countP_le_length (fun y => gt x y) (l := xs)
    simp only [inversions, List.length_cons]
    nlinarith

/-- With an asymmetric `gt` and more rounds than inversions, the loop of
`sort` ends on a rearrangement whose adjacent pairs are all in order. -/
theorem sortLoop_spec (gt : T → T → Bool) (hasym : ∀ a b, gt a b = true → gt b a = false)
    (fuel : Nat) (chain : List T) (hne : chain ≠ []) (hf : inversions gt chain < fuel) :
    ∃ r, sortLoop gt fuel chain = some r ∧ r.Perm chain
      ∧ r.Chain' (fun a b => gt a b = false) := by
  induction fuel generalizing chain with
  | zero => omega
  | succ fuel ih =>
    cases chain with
    | nil => exact absurd rfl hne
    | cons v rest =>
      cases hs : (bubblePass gt v rest false).2
      · obtain ⟨e1, e2⟩ := bubblePass_not_swapped gt v rest false hs
        refine ⟨v :: rest, ?_, List.Perm.refl _, e2⟩
        have e : bubblePass gt v rest false = (v :: rest, false) := Prod.ext e1 hs
        simp [sortLoop, sortPass, e]
      · obtain ⟨_, i2⟩ := bubblePass_inversions gt hasym v rest false
        have hlt : inversions gt (bubblePass gt v rest false).1 < inversions gt (v :: rest) := by
          rcases i2 hs with e | e
          · cases e
          · exact e
        have hp := bubblePass_perm gt v rest false
        have hne1 : (bubblePass gt v rest false).1 ≠ [] := by
          intro e
          rw [e] at hp
          exact absurd hp.symm (by simp)
        obtain ⟨r, r1, r2, r3⟩ := ih (bubblePass gt v rest false).1 hne1 (by omega)
        refine ⟨r, ?_, r2.trans hp, r3⟩
        have e : bubblePass gt v rest false = ((bubblePass gt v rest false).1, true) :=
          Prod.ext rfl hs
        rw [sortLoop, sortPass, e]
        simpa using r1

/-- The result of `sort()` on a list whose `sizeOfList` is its number of
nodes, for an asymmetric `gt`. -/
theorem sort_eq (gt : T → T → Bool) (hasym : ∀ a b, gt a b = true → gt b a = false)
    (l : LinkedList T) (hc : l.sizeOfList = l.head.length) :
    ∃ chain, sort gt l = .returned () { l with head := chain } ∧ chain.Perm l.head
      ∧ chain.Chain' (fun a b => gt a b = false)
      ∧ (l.head.length < 2 → chain = l.head) := by
  by_cases h2 : l.sizeOfList < 2
  · refine ⟨l.head, by simp [sort, h2], List.Perm.refl _, ?_, fun _ => rfl⟩
    rw [hc] at h2
    cases hh : l.head with
    | nil => exact List.chain'_nil
    | cons x xs =>
      cases xs with
      | nil => exact List.chain'_singleton x
      | cons y ys =>
        rw [hh] at h2
        simp only [List.length_cons] at h2
        omega
  · have hne : l.head ≠ [] := by
      intro e
      rw [hc, e] at h2
      simp at h2
    obtain ⟨r, r1, r2, r3⟩ := sortLoop_spec gt hasym (l.head.length * l.head.length + 1)
      l.head hne (Nat.lt_succ_of_le (inversions_le_sq gt l.head))
    refine ⟨r, by simp [sort, h2, r1], r2, r3, fun hl => ?_⟩
    rw [hc] at h2
    omega

theorem gtOf_asymm [LinearOrder T] (a b : T) (h : gtOf a b = true) : gtOf b a = false := by
  simp only [gtOf, decide_eq_true_eq, decide_eq_false_iff_not, not_lt] at h ⊢
  exact le_of_lt h

theorem gtOf_eq_false_iff [LinearOrder T] (a b : T) : gtOf a b = false ↔ a ≤ b := by
  simp [gtOf]

theorem sorted_of_chain_gtOf [LinearOrder T] {r : List T}
    (h : r.Chain' (fun a b => gtOf a b = false)) : r.Sorted (· ≤ ·) := by
  have h2 : r.Chain' (· ≤ ·) := h.imp (fun a b hab => (gtOf_eq_false_iff a b).mp hab)
  exact List.chain'_iff_pairwise.mp h2

theorem chain_gtOf_of_sorted [LinearOrder T] {r : List T} (h : r.Sorted (· ≤ ·)) :
    r.Chain' (fun a b => gtOf a b = false) := by
  have h2 : r.Chain' (· ≤ ·) := List.chain'_iff_pairwise.mpr h
  exact h2.imp (fun a b hab => (gtOf_eq_false_iff a b).mpr hab)

/-- Claim C11: on a list over a linearly ordered type whose `sizeOfList` is its
number of nodes, `sort()` returns; afterwards the element sequence is in
non-decreasing order and is a permutation of the sequence before the call,
`size()` and `tail` are as before, and a list of `0` or `1` elements is left
exactly as it was. On `[3, 1, 2]`, `sort()` yields `[1, 2, 3]`. -/
theorem sort_sorted_perm [LinearOrder T] (l : LinkedList T)
    (hc : l.sizeOfList = l.head.length) :
    (∃ l1, sort gtOf l = .returned () l1 ∧ l1.head.Sorted (· ≤ ·) ∧ l1.head.Perm l.head
        ∧ size l1 = size l ∧ l1.tail = l.tail ∧ (l.head.length ≤ 1 → l1 = l))
      ∧ sort gtOf (ofValues [3, 1, 2]) = .returned () (ofValues [1, 2, 3]) := by
  refine ⟨?_, by decide⟩
  obtain ⟨chain, h1, h2, h3, h4⟩ := sort_eq gtOf gtOf_asymm l hc
  refine ⟨{ l with head := chain }, h1, sorted_of_chain_gtOf h3, h2, rfl, rfl, fun hl => ?_⟩
  rw [h4 (by omega)]

theorem sort_sorted_perm_witness :
    (ofValues [2, 3, 1, 2]).sizeOfList = (ofValues [2, 3, 1, 2]).head.length
      ∧ ((∃ l1, sort gtOf (ofValues [2, 3, 1, 2]) = .returned () l1
            ∧ l1.head.Sorted (· ≤ ·) ∧ l1.head.Perm (ofValues [2, 3, 1, 2]).head
            ∧ size l1 = size (ofValues [2, 3, 1, 2]) ∧ l1.tail = (ofValues [2, 3, 1, 2]).tail
            ∧ ((ofValues [2, 3, 1, 2]).head.length ≤ 1 → l1 = ofValues [2, 3, 1, 2]))
          ∧ sort gtOf (ofValues [3, 1, 2]) = .returned () (ofValues [1, 2, 3])) :=
  ⟨rfl, sort_sorted_perm (ofValues [2, 3, 1, 2]) rfl⟩

/-- Claim C20: over a linearly ordered type, on every list whose `sizeOfList`
is its number of nodes, `sort()` returns; a round of its `do ... while
(isSwapped)` loop that sets `isSwapped` leaves strictly fewer inversions than
it found, so on a list with a first node any number of rounds above the number
of inversions is enough for the loop to end; and on values already in
non-decreasing order `sort()` leaves the list as it was, the loop stopping
after one round with `isSwapped` unset. -/
theorem sort_loop_terminates [LinearOrder T] (l : LinkedList T)
    (hc : l.sizeOfList = l.head.length) :
    (∃ l1, sort gtOf l = .returned () l1)
      ∧ (∀ chain1 isSwapped, sortPass gtOf l.head = some (chain1, isSwapped) → isSwapped = true →
          inversions gtOf chain1 < inversions gtOf l.head)
      ∧ (l.head ≠ [] → ∀ rounds, inversions gtOf l.head < rounds →
          ∃ r, sortLoop gtOf rounds l.head = some r)
      ∧ (l.head.Sorted (· ≤ ·) →
          sort gtOf l = .returned () l
            ∧ (l.head ≠ [] → sortPass gtOf l.head = some (l.head, false)
                ∧ sortLoop gtOf 1 l.head = some l.head)) := by
  obtain ⟨c, hret, _, _, hsmall⟩ := sort_eq gtOf gtOf_asymm l hc
  obtain ⟨s, chain, tl⟩ := l
  simp only at hc hret hsmall ⊢
  cases chain with
  | nil =>
    refine ⟨⟨_, hret⟩, ?_, fun h => absurd rfl h, fun _ => ⟨?_, fun h => absurd rfl h⟩⟩
    · intro chain1 isSwapped h1
      simp [sortPass] at h1
    · rw [hret, hsmall (by simp)]
  | cons v rest =>
    refine ⟨⟨_, hret⟩, ?_, ?_, ?_⟩
    · intro chain1 isSwapped h1 h2
      simp only [sortPass, Option.some.injEq] at h1
      obtain ⟨_, i2⟩ := bubblePass_inversions gtOf gtOf_asymm v rest false
      rw [h1] at i2
      rcases i2 h2 with e | e
      · cases e
      · exact e
    · intro hne rounds hr
      obtain ⟨r, h1, _⟩ := sortLoop_spec gtOf gtOf_asymm rounds (v :: rest) hne hr
      exact ⟨r, h1⟩
    · intro hs
      have hch : List.Chain (fun a b => gtOf a b = false) v rest := chain_gtOf_of_sorted hs
      have e := bubblePass_of_chain gtOf v rest false hch
      have e1 : sortPass gtOf (v :: rest) = some (v :: rest, false) := by
        simp [sortPass, e]
      have e2 : sortLoop gtOf 1 (v :: rest) = some (v :: rest) := by
        simp [sortLoop, e1]
      refine ⟨?_, fun _ => ⟨e1, e2⟩⟩
      by_cases h2 : s < 2
      · simp [sort, h2]
      · have hfuel : ∃ k, (v :: rest).length * (v :: rest).length + 1 = k + 1 := ⟨_, rfl⟩
        obtain ⟨k, hk⟩ := hfuel
        simp only [sort, h2, if_false, hk, sortLoop, e1, Bool.false_eq_true]

theorem sort_loop_terminates_witness :
    (ofValues [3, 1, 2]).sizeOfList = (ofValues [3, 1, 2]).head.length
      ∧ ((∃ l1, sort gtOf (ofValues [3, 1, 2]) = .returned () l1)
          ∧ (∀ chain1 isSwapped,
              sortPass gtOf (ofValues [3, 1, 2]).head = some (chain1, isSwapped) →
              isSwapped = true →
              inversions gtOf chain1 < inversions gtOf (ofValues [3, 1, 2]).head)
          ∧ ((ofValues [3, 1, 2]).head ≠ [] →
              ∀ rounds, inversions gtOf (ofValues [3, 1, 2]).head < rounds →
                ∃ r, sortLoop gtOf rounds (ofValues [3, 1, 2]).head = some r)
          ∧ ((ofValues [3, 1, 2]).head.Sorted (· ≤ ·) →
              sort gtOf (ofValues [3, 1, 2]) = .returned () (ofValues [3, 1, 2])
                ∧ ((ofValues [3, 1, 2]).head ≠ [] →
                    sortPass gtOf (ofValues [3, 1, 2]).head
                        = some ((ofValues [3, 1, 2]).head, false)
                      ∧ sortLoop gtOf 1 (ofValues [3, 1, 2]).head
                        = some (ofValues [3, 1, 2]).head))) :=
  ⟨rfl, sort_loop_terminates (ofValues [3, 1, 2]) rfl⟩

theorem StrictWeakOrder.asymm {gt : T → T → Bool} (h : StrictWeakOrder gt) (a b : T)
    (hab : gt a b = true) : gt b a = false := by
  cases hba : gt b a
  · rfl
  · have := h.trans a b a hab hba
    rw [h.irrefl a] at this
    cases this

theorem StrictWeakOrder.neg_trans {gt : T → T → Bool} (h : StrictWeakOrder gt) (a b c : T)
    (hab : gt a b = false) (hbc : gt b c = false) : gt a c = false := by
  cases hac : gt a c
  · rfl
  · have hba : gt b a = false := by
      cases hba : gt b a
      · rfl
      · rw [h.trans b a c hba hac] at hbc
        cases hbc
    have hcb : gt c b = false := by
      cases hcb : gt c b
      · rfl
      · rw [h.trans a c b hac hcb] at hab
        cases hab
    rw [(h.incomp_trans a b c hab hba hbc hcb).1] at hac
    cases hac

/-- Two values of which one is greater than the other are not both equivalent
to a third. -/
theorem StrictWeakOrder.not_both_equivalent {gt : T → T → Bool} (h : StrictWeakOrder gt)
    (a b c : T) (hab : gt a b = true) (hca : equivalent gt c a = true) :
    equivalent gt c b = false := by
  cases hcb : equivalent gt c b
  · rfl
  · simp only [equivalent, Bool.and_eq_true, Bool.not_eq_true'] at hca hcb
    rw [(h.incomp_trans a c b hca.2 hca.1 hcb.1 hcb.2).1] at hab
    cases hab

theorem filter_equivalent_swap {gt : T → T → Bool} (h : StrictWeakOrder gt) (a b c : T)
    (hab : gt a b = true) (xs : List T) :
    (b :: a :: xs).filter (equivalent gt c) = (a :: b :: xs).filter (equivalent gt c) := by
  cases hca : equivalent gt c a
  · simp [List.filter_cons, hca]
  · simp [List.filter_cons, hca, h.not_both_equivalent a b c hab hca]

theorem filter_cons_congr (p : T → Bool) (a : T) {xs ys : List T}
    (h : xs.filter p = ys.filter p) : (a :: xs).filter p = (a :: ys).filter p := by
  simp only [List.filter_cons, h]

/-- A pass of `sort` keeps, for every value `c`, the elements equivalent to `c`
in the order they had. -/
theorem bubblePass_filter_equivalent {gt : T → T → Bool} (h : StrictWeakOrder gt) (c v : T)
    (rest : List T) (f : Bool) :
    (bubblePass gt v rest f).1.filter (equivalent gt c)
      = (v :: rest).filter (equivalent gt c) := by
  induction rest generalizing v f with
  | nil => simp [bubblePass]
  | cons n rest ih =>
    by_cases hg : gt v n = true
    · simp only [bubblePass, hg, if_true]
      exact (filter_cons_congr _ n (ih v true)).trans (filter_equivalent_swap h v n c hg rest)
    · have hg2 : gt v n = false := by simpa using hg
      simp only [bubblePass, hg2, Bool.false_eq_true, if_false]
      exact filter_cons_congr _ v (ih n f)

theorem sortLoop_filter_equivalent {gt : T → T → Bool} (h : StrictWeakOrder gt) (c : T)
    (fuel : Nat) (chain r : List T) (hr : sortLoop gt fuel chain = some r) :
    r.filter (equivalent gt c) = chain.filter (equivalent gt c) := by
  induction fuel generalizing chain with
  | zero => simp [sortLoop] at hr
  | succ fuel ih =>
    cases chain with
    | nil => simp [sortLoop, sortPass] at hr
    | cons v rest =>
      simp only [sortLoop, sortPass] at hr
      have hp := bubblePass_filter_equivalent h c v rest false
      split at hr
      · rw [ih _ hr, hp]
      · cases hr
        exact hp

theorem pairwise_of_chain_gt {gt : T → T → Bool} (h : StrictWeakOrder gt) {r : List T}
    (hr : r.Chain' (fun a b => gt a b = false)) : r.Pairwise (fun a b => gt a b = false) := by
  haveI : IsTrans T (fun a b => gt a b = false) := ⟨fun a b c => h.neg_trans a b c⟩
  exact List.chain'_iff_pairwise.mp hr

theorem equivalent_self {gt : T → T → Bool} (h : StrictWeakOrder gt) (a : T) :
    equivalent gt a a = true := by
  simp [equivalent, h.irrefl a]

/-- Two sequences in order that hold, for every value `c`, the same elements
equivalent to `c` in the same order, are equal. -/
theorem stable_sorted_unique {gt : T → T → Bool} (h : StrictWeakOrder gt) (xs ys : List T)
    (hx : xs.Pairwise (fun a b => gt a b = false)) (hy : ys.Pairwise (fun a b => gt a b = false))
    (hf : ∀ c, xs.filter (equivalent gt c) = ys.filter (equivalent gt c)) : xs = ys := by
  induction xs generalizing ys with
  | nil =>
    cases ys with
    | nil => rfl
    | cons y ys2 =>
      have := hf y
      simp [List.filter_cons, equivalent_self h y] at this
  | cons x xs2 ih =>
    cases ys with
    | nil =>
      have := hf x
      simp [List.filter_cons, equivalent_self h x] at this
    | cons y ys2 =>
      have hxm : x ∈ y :: ys2 := by
        have hmem : x ∈ (x :: xs2).filter (equivalent gt x) := by
          simp [List.filter_cons, equivalent_self h x]
        rw [hf x] at hmem
        exact (List.mem_filter.mp hmem).1
      have hym : y ∈ x :: xs2 := by
        have hmem : y ∈ (y :: ys2).filter (equivalent gt y) := by
          simp [List.filter_cons, equivalent_self h y]
        rw [← hf y] at hmem
        exact (List.mem_filter.mp hmem).1
      have hxy : gt x y = false := by
        rcases List.mem_cons.mp hym with e | e
        · rw [e]
          exact h.irrefl x
        · exact (List.pairwise_cons.mp hx).1 y e
      have hyx : gt y x = false := by
        rcases List.mem_cons.mp hxm with e | e
        · rw [e]
          exact h.irrefl y
        · exact (List.pairwise_cons.mp hy).1 x e
      have heq : equivalent gt x y = true := by
        simp [equivalent, hxy, hyx]
      have hhead := hf x
      simp only [List.filter_cons, equivalent_self h x, heq, if_true, List.cons.injEq] at hhead
      have e : x = y := hhead.1
      subst e
      congr 1
      apply ih ys2 (List.pairwise_cons.mp hx).2 (List.pairwise_cons.mp hy).2
      intro c
      have hc := hf c
      cases hcx : equivalent gt c x
      · simpa [List.filter_cons, hcx] using hc
      · simpa [List.filter_cons, hcx] using hc

theorem orderedInsert_filter_equivalent {gt : T → T → Bool} (h : StrictWeakOrder gt) (c a : T)
    (xs : List T) :
    (List.orderedInsert (fun a b => gt a b = false) a xs).filter (equivalent gt c)
      = (a :: xs).filter (equivalent gt c) := by
  induction xs with
  | nil => simp
  | cons b xs ih =>
    by_cases hg : gt a b = false
    · simp only [List.orderedInsert, hg, if_true]
    · have hg2 : gt a b = true := by simpa using hg
      simp only [List.orderedInsert, hg2, Bool.true_eq_false, if_false]
      exact (filter_cons_congr _ b ih).trans (filter_equivalent_swap h a b c hg2 xs)

/-- The reference sort is stable. -/
theorem referenceStableSort_filter_equivalent {gt : T → T → Bool} (h : StrictWeakOrder gt)
    (c : T) (xs : List T) :
    (referenceStableSort gt xs).filter (equivalent gt c) = xs.filter (equivalent gt c) := by
  induction xs with
  | nil => simp [referenceStableSort]
  | cons a xs ih =>
    unfold referenceStableSort at ih ⊢
    rw [List.insertionSort, orderedInsert_filter_equivalent h]
    exact filter_cons_congr _ a ih

/-- The reference sort puts the values in order. -/
theorem referenceStableSort_pairwise {gt : T → T → Bool} (h : StrictWeakOrder gt)
    (xs : List T) : (referenceStableSort gt xs).Pairwise (fun a b => gt a b = false) := by
  haveI : IsTrans T (fun a b => gt a b = false) := ⟨fun a b c => h.neg_trans a b c⟩
  haveI : IsTotal T (fun a b => gt a b = false) := ⟨fun a b => by
    cases hab : gt a b
    · exact Or.inl rfl
    · exact Or.inr (h.asymm a b hab)⟩
  exact List.sorted_insertionSort (fun a b => gt a b = false) xs

theorem sort_filter_equivalent {gt : T → T → Bool} (h : StrictWeakOrder gt) (l l1 : LinkedList T)
    (hs : sort gt l = .returned () l1) (c : T) :
    l1.head.filter (equivalent gt c) = l.head.filter (equivalent gt c) := by
  unfold sort at hs
  split at hs
  · cases hs
    rfl
  · cases hr : sortLoop gt (l.head.length * l.head.length + 1) l.head with
    | none => simp [hr] at hs
    | some chain =>
      simp only [hr, Outcome.returned.injEq, true_and] at hs
      rw [← hs]
      exact sortLoop_filter_equivalent h c _ _ _ hr

theorem gtByFirst_strictWeakOrder : StrictWeakOrder gtByFirst := by
  constructor
  · intro a
    simp [gtByFirst]
  · intro a b c h1 h2
    simp only [gtByFirst, decide_eq_true_eq] at h1 h2 ⊢
    omega
  · intro a b c h1 h2 h3 h4
    simp only [gtByFirst, decide_eq_false_iff_not, not_lt] at h1 h2 h3 h4 ⊢
    omega

/-- Claim C12: for a comparison `>` that is a strict weak order, on a list
whose `sizeOfList` is its number of nodes, `sort()` returns with the values in
order; for every value `c` the elements that compare equivalent to `c` appear
after the call in the same order as before it; the result is the sequence the
reference stable sort gives, and it is the only sequence in order that keeps
equivalent elements in their order. -/
theorem sort_stable (gt : T → T → Bool) (h : StrictWeakOrder gt) (l : LinkedList T)
    (hc : l.sizeOfList = l.head.length) :
    ∃ l1, sort gt l = .returned () l1
      ∧ l1.head.Pairwise (fun a b => gt a b = false)
      ∧ (∀ c, l1.head.filter (equivalent gt c) = l.head.filter (equivalent gt c))
      ∧ l1.head = referenceStableSort gt l.head
      ∧ (∀ ys : List T, ys.Pairwise (fun a b => gt a b = false) →
          (∀ c, ys.filter (equivalent gt c) = l.head.filter (equivalent gt c)) →
          ys = l1.head) := by
  obtain ⟨chain, h1, _, h3, _⟩ := sort_eq gt h.asymm l hc
  have hp : chain.Pairwise (fun a b => gt a b = false) := pairwise_of_chain_gt h h3
  have hf : ∀ c, chain.filter (equivalent gt c) = l.head.filter (equivalent gt c) :=
    fun c => sort_filter_equivalent h l { l with head := chain } h1 c
  refine ⟨{ l with head := chain }, h1, hp, hf, ?_, ?_⟩
  · apply stable_sorted_unique h _ _ hp (referenceStableSort_pairwise h l.head)
    intro c
    rw [hf c, referenceStableSort_filter_equivalent h c l.head]
  · intro ys hy hyf
    apply stable_sorted_unique h _ _ hy hp
    intro c
    rw [hyf c, hf c]

theorem sort_stable_witness :
    StrictWeakOrder gtByFirst
      ∧ (ofValues [(2, 0), (1, 0), (2, 1), (1, 1)]).sizeOfList
          = (ofValues [(2, 0), (1, 0), (2, 1), (1, 1)]).head.length
      ∧ ∃ l1, sort gtByFirst (ofValues [(2, 0), (1, 0), (2, 1), (1, 1)]) = .returned () l1
          ∧ l1.head.Pairwise (fun a b => gtByFirst a b = false)
          ∧ (∀ c, l1.head.filter (equivalent gtByFirst c)
              = (ofValues [(2, 0), (1, 0), (2, 1), (1, 1)]).head.filter (equivalent gtByFirst c))
          ∧ l1.head = referenceStableSort gtByFirst
              (ofValues [(2, 0), (1, 0), (2, 1), (1, 1)]).head
          ∧ (∀ ys : List (Nat × Nat), ys.Pairwise (fun a b => gtByFirst a b = false) →
              (∀ c, ys.filter (equivalent gtByFirst c)
                = (ofValues [(2, 0), (1, 0), (2, 1), (1, 1)]).head.filter
                    (equivalent gtByFirst c)) →
              ys = l1.head) :=
  ⟨gtByFirst_strictWeakOrder, rfl,
    sort_stable gtByFirst gtByFirst_strictWeakOrder (ofValues [(2, 0), (1, 0), (2, 1), (1, 1)])
      rfl⟩

theorem sort_gtByFirst_example :
    sort gtByFirst (ofValues [(2, 0), (1, 0), (2, 1), (1, 1)])
      = .returned () (ofValues [(1, 0), (1, 1), (2, 0), (2, 1)]) := by
  decide

/-- Claim C13: for every list `A` with element sequence `s` whose `sizeOfList`
is the length of `s`, move construction of `B` from `A`, and move assignment
of `A` into a distinct `B` of any prior contents, both leave `B` with exactly
`s` in order, `B.size()` the length of `s` and `tail` where `A` had it, and
leave `A` in the default state: no first node, no last node, `size()` `0`. -/
theorem move_transfers (a b : LinkedList T) (hc : a.sizeOfList = a.head.length) :
    (∃ b1 a1, moveConstruct a = .done b1 a1 ∧ b1.head = a.head ∧ size b1 = a.head.length
        ∧ b1.tail = a.tail ∧ a1.head = [] ∧ a1.tail = .null ∧ size a1 = 0
        ∧ isEmpty a1 = true)
      ∧ (∃ b1 a1, moveAssign b a false = .done b1 a1 ∧ b1.head = a.head
        ∧ size b1 = a.head.length ∧ b1.tail = a.tail ∧ a1.head = [] ∧ a1.tail = .null
        ∧ size a1 = 0 ∧ isEmpty a1 = true) := by
  constructor
  · exact ⟨_, _, rfl, rfl, hc, rfl, rfl, rfl, rfl, rfl⟩
  · obtain ⟨b0, h0, _⟩ := clear_head b
    simp only [moveAssign, Bool.false_eq_true, if_false, h0]
    exact ⟨_, _, rfl, rfl, hc, rfl, rfl, rfl, rfl, rfl⟩

theorem move_transfers_witness :
    (ofValues [1, 2, 3]).sizeOfList = (ofValues [1, 2, 3]).head.length
      ∧ ((∃ b1 a1, moveConstruct (ofValues [1, 2, 3]) = .done b1 a1
            ∧ b1.head = (ofValues [1, 2, 3]).head ∧ size b1 = (ofValues [1, 2, 3]).head.length
            ∧ b1.tail = (ofValues [1, 2, 3]).tail ∧ a1.head = [] ∧ a1.tail = .null
            ∧ size a1 = 0 ∧ isEmpty a1 = true)
          ∧ (∃ b1 a1, moveAssign (ofValues [8, 9]) (ofValues [1, 2, 3]) false = .done b1 a1
            ∧ b1.head = (ofValues [1, 2, 3]).head ∧ size b1 = (ofValues [1, 2, 3]).head.length
            ∧ b1.tail = (ofValues [1, 2, 3]).tail ∧ a1.head = [] ∧ a1.tail = .null
            ∧ size a1 = 0 ∧ isEmpty a1 = true)) :=
  ⟨rfl, move_transfers (ofValues [1, 2, 3]) (ofValues [8, 9]) rfl⟩

theorem invariant_iff (l : LinkedList T) : Invariant l ↔ CountOk l ∧ TailOk l := by
  obtain ⟨s, chain, tl⟩ := l
  cases chain with
  | nil =>
    constructor
    · rintro ⟨h1, h2, _, h4, _⟩
      exact ⟨⟨h1, by rw [← h1]; exact h2⟩, h4.mp rfl⟩
    · rintro ⟨⟨h1, h2⟩, h3⟩
      have h3b : tl = NodePtr.null := h3
      have h1b : s = 0 := h1
      refine ⟨h1, by rw [h1]; exact h2, ⟨fun _ => rfl, fun _ => h1b⟩,
        ⟨fun _ => h3b, fun _ => rfl⟩, fun h => absurd rfl h⟩
  | cons x rest =>
    constructor
    · rintro ⟨h1, h2, _, _, h5⟩
      refine ⟨⟨h1, by rw [← h1]; exact h2⟩, ?_⟩
      have h5b := h5 (List.cons_ne_nil x rest)
      simp only [List.length_cons, Nat.add_sub_cancel] at h5b
      exact h5b
    · rintro ⟨⟨h1, h2⟩, h3⟩
      have h3b : tl = NodePtr.node rest.length := h3
      have h1b : s = rest.length + 1 := h1
      refine ⟨h1, by rw [h1]; exact h2, ⟨fun h => ?_, fun h => ?_⟩, ⟨fun h => ?_, fun h => ?_⟩,
        fun _ => ?_⟩
      · simp only at h
        omega
      · exact absurd h (List.cons_ne_nil x rest)
      · exact absurd h (List.cons_ne_nil x rest)
      · simp only at h
        rw [h3b] at h
        cases h
      · simp only [List.length_cons, Nat.add_sub_cancel]
        exact h3b

theorem lastPtr_eq_of_length_eq {xs ys : List T} (h : xs.length = ys.length) :
    lastPtr xs = lastPtr ys := by
  cases xs with
  | nil =>
    cases ys with
    | nil => rfl
    | cons y ys2 => simp at h
  | cons x xs2 =>
    cases ys with
    | nil => simp at h
    | cons y ys2 =>
      simp only [List.length_cons, Nat.add_right_cancel_iff] at h
      simp [lastPtr, h]

theorem pushFront_invariants (l : LinkedList T) (v : T) (hc : CountOk l) (ht : TailOk l)
    (hroom : l.head.length + 1 < SIZE_MOD) :
    CountOk (pushFront l v) ∧ TailOk (pushFront l v) := by
  obtain ⟨s, chain, tl⟩ := l
  obtain ⟨h1, h2⟩ := hc
  simp only [TailOk] at ht
  simp only at h1 h2 hroom
  subst h1 ht
  refine ⟨⟨?_, by simpa using hroom⟩, ?_⟩
  · simp [pushFront, incSize_of_lt hroom]
  · cases chain <;> simp [pushFront, TailOk, lastPtr, NodePtr.afterLinkFront]

theorem pushBack_invariants (l : LinkedList T) (v : T) (hc : CountOk l) (ht : TailOk l)
    (hroom : l.head.length + 1 < SIZE_MOD) :
    ∃ l1, pushBack l v = .returned () l1 ∧ l1.head = l.head ++ [v] ∧ CountOk l1 ∧ TailOk l1 := by
  refine ⟨_, pushBack_eq l v ht, rfl, ⟨?_, ?_⟩, rfl⟩
  · simp only [List.length_append, List.length_singleton]
    rw [hc.1, incSize_of_lt hroom]
  · simpa using hroom

theorem popFront_invariants (l : LinkedList T) (hc : CountOk l) (ht : TailOk l) :
    ∃ l1, (popFront l).after = some l1 ∧ l1.head = l.head.tail ∧ CountOk l1 ∧ TailOk l1 := by
  obtain ⟨s, chain, tl⟩ := l
  obtain ⟨h1, h2⟩ := hc
  simp only [TailOk] at ht
  simp only at h1 h2
  subst h1 ht
  cases chain with
  | nil => exact ⟨_, rfl, rfl, ⟨rfl, h2⟩, rfl⟩
  | cons x rest =>
    refine ⟨_, rfl, rfl, ⟨?_, ?_⟩, ?_⟩
    · simp only [List.length_cons] at h2 ⊢
      rw [decSize_of_pos (by omega) h2]
      omega
    · simp only [List.length_cons] at h2 ⊢
      omega
    · cases rest <;> simp [TailOk, lastPtr, NodePtr.afterDelete]

/-- On a non-empty list that satisfies the invariants `popBack` returns the
last value and leaves the values before it, with `tail` on the last of
them. -/
theorem popBack_concat (s : Nat) (xs : List T) (v : T) (hs : s + 1 < SIZE_MOD) :
    popBack { sizeOfList := s + 1, head := xs ++ [v], tail := lastPtr (xs ++ [v]) }
      = .returned v { sizeOfList := s, head := xs, tail := lastPtr xs } := by
  have ht : TailOk { sizeOfList := s, head := xs, tail := lastPtr xs } := rfl
  have h1 := popBack_pushBack { sizeOfList := s, head := xs, tail := lastPtr xs } v ht
    (by simp only; omega)
  rw [pushBack_eq _ v ht] at h1
  simp only [Outcome.andThen, incSize_of_lt hs] at h1
  exact h1

theorem popBack_invariants (l : LinkedList T) (hc : CountOk l) (ht : TailOk l) :
    ∃ l1, (popBack l).after = some l1 ∧ l1.head = l.head.dropLast ∧ CountOk l1 ∧ TailOk l1 := by
  obtain ⟨s, chain, tl⟩ := l
  obtain ⟨h1, h2⟩ := hc
  simp only [TailOk] at ht
  simp only at h1 h2
  subst h1 ht
  rcases List.eq_nil_or_concat chain with e | ⟨xs, v, e⟩
  · subst e
    exact ⟨_, rfl, rfl, ⟨rfl, h2⟩, rfl⟩
  · rw [List.concat_eq_append] at e
    subst e
    have hlen : (xs ++ [v]).length = xs.length + 1 := by simp
    rw [hlen] at h2 ⊢
    rw [popBack_concat xs.length xs v h2]
    exact ⟨_, rfl, by simp, ⟨rfl, by simp only; omega⟩, rfl⟩

/-- The member `remove` keeps `tail` on the last node. -/
theorem remove_tailOk [DecidableEq T] (l : LinkedList T) (v : T) (b : Bool) (l1 : LinkedList T)
    (ht : TailOk l) (hr : remove l v = .returned b l1) : TailOk l1 := by
  obtain ⟨s, chain, tl⟩ := l
  simp only [TailOk] at ht
  subst ht
  cases chain with
  | nil =>
    simp only [remove, Outcome.returned.injEq] at hr
    rw [← hr.2]
    rfl
  | cons first second =>
    by_cases hf : first = v
    · simp only [remove, hf, if_true, popFront, Outcome.andThen, Outcome.returned.injEq] at hr
      rw [← hr.2]
      cases second <;> simp [TailOk, lastPtr, NodePtr.afterDelete]
    · simp only [remove, hf, if_false] at hr
      generalize hk : removeScan v 0 second = k at hr
      cases hd : List.drop (k + 1) (first :: second) with
      | nil =>
        simp only [hd, Outcome.returned.injEq] at hr
        rw [← hr.2]
        rfl
      | cons x after =>
        simp only [hd, Outcome.returned.injEq] at hr
        rw [← hr.2]
        have hsplit : List.take (k + 1) (first :: second) ++ x :: after = first :: second := by
          rw [← hd]
          exact List.take_append_drop _ _
        have hlen := congrArg List.length hsplit
        have hdl := congrArg List.length hd
        simp only [List.length_append, List.length_cons, List.length_take,
          List.length_drop] at hlen hdl
        cases after with
        | nil =>
          simp only [TailOk, List.append_nil]
          rw [lastPtr_of_ne_nil (by
            intro e
            have := congrArg List.length e
            simp only [List.length_take, List.length_cons, List.length_nil] at this
            omega)]
          simp only [List.length_take, List.length_cons, List.length_nil] at hdl ⊢
          congr 1
          omega
        | cons a r =>
          simp only [TailOk]
          rw [lastPtr_of_ne_nil (List.cons_ne_nil first second),
            @lastPtr_of_ne_nil T (List.take (k + 1) (first :: second) ++ a :: r) (by simp)]
          simp only [NodePtr.afterDelete, List.length_cons, List.length_append,
            List.length_take, Nat.add_sub_cancel] at hdl hlen ⊢
          have h1 : ¬ second.length < k + 1 := by omega
          have h2 : ¬ second.length = k + 1 := by omega
          simp only [h1, h2, if_false]
          congr 1
          omega

theorem remove_invariants [DecidableEq T] (l : LinkedList T) (v : T) (hc : CountOk l)
    (ht : TailOk l) :
    ∃ l1, (remove l v).after = some l1
      ∧ l1.head.length + (if v ∈ l.head then 1 else 0) = l.head.length ∧ CountOk l1
      ∧ TailOk l1 := by
  obtain ⟨l1, h1, h2, h3, h4⟩ := remove_eq l v hc
  refine ⟨l1, by rw [h1]; rfl, ?_, h4, remove_tailOk l v _ l1 ht h1⟩
  by_cases hm : v ∈ l.head
  · obtain ⟨pre, post, e1, _, e3, _⟩ := h3 hm
    rw [if_pos hm, e1, e3]
    simp only [List.length_append, List.length_cons]
    omega
  · rw [if_neg hm, h2 hm]
    rfl

/-- The values that differ from `v` and the occurrences of `v` are all the
values of a chain. -/
theorem length_filter_ne_add_count [DecidableEq T] (v : T) (xs : List T) :
    (xs.filter (fun x => decide (x ≠ v))).length + xs.count v = xs.length := by
  induction xs with
  | nil => rfl
  | cons x rest ih =>
    simp only [ne_eq] at ih
    by_cases hx : x = v
    · subst hx
      simp only [ne_eq, not_true_eq_false, decide_False, Bool.false_eq_true, not_false_eq_true,
        List.filter_cons_of_neg, List.count_cons_self, List.length_cons]
      omega
    · have hb : (x == v) = false := by simpa using hx
      simp only [List.filter_cons, ne_eq, hx, not_false_eq_true, decide_True, if_true,
        List.length_cons, List.count_cons, hb, Bool.false_eq_true, if_false]
      omega

theorem removeAllLoop_invariants [DecidableEq T] (v : T) (fuel : Nat) (flag : Bool)
    (l : LinkedList T) (hf : l.head.length < fuel) (hc : CountOk l) (ht : TailOk l) :
    ∃ b l1, removeAllLoop v fuel flag l = .returned b l1
      ∧ l1.head = l.head.filter (fun x => decide (x ≠ v))
      ∧ CountOk l1 ∧ TailOk l1 := by
  induction fuel generalizing flag l with
  | zero => omega
  | succ fuel ih =>
    by_cases h : contains l v = true
    · have hm := (contains_iff l v).mp h
      obtain ⟨l1, h1, _, h3, h4⟩ := remove_eq l v hc
      have ht1 := remove_tailOk l v _ l1 ht h1
      obtain ⟨pre, post, e1, _, e3, _⟩ := h3 hm
      have hlen : l1.head.length + 1 = l.head.length := by
        rw [e1, e3]
        simp only [List.length_append, List.length_cons]
        omega
      obtain ⟨b, l2, g1, g2, g3, g4⟩ := ih true l1 (by omega) h4 ht1
      refine ⟨b, l2, ?_, ?_, g3, g4⟩
      · simp only [removeAllLoop, h, if_true, h1, Outcome.andThen, g1]
      · rw [g2, e3, e1, filter_ne_split]
    · refine ⟨flag, l, ?_, ?_, hc, ht⟩
      · simp only [removeAllLoop, h, Bool.false_eq_true, if_false]
      · symm
        rw [List.filter_eq_self]
        intro a ha
        simp only [ne_eq, decide_eq_true_eq]
        intro e
        exact h ((contains_iff l v).mpr (e ▸ ha))

theorem sort_invariants (gt : T → T → Bool) (hasym : ∀ a b, gt a b = true → gt b a = false)
    (l : LinkedList T) (hc : CountOk l) (ht : TailOk l) :
    ∃ l1, sort gt l = .returned () l1 ∧ l1.head.Perm l.head ∧ CountOk l1 ∧ TailOk l1 := by
  obtain ⟨chain, h1, h2, _, _⟩ := sort_eq gt hasym l hc.1
  refine ⟨_, h1, h2, ⟨?_, ?_⟩, ?_⟩
  · simp only [h2.length_eq]
    exact hc.1
  · simp only [h2.length_eq]
    exact hc.2
  · simp only [TailOk]
    rw [ht]
    exact lastPtr_eq_of_length_eq h2.length_eq.symm

/-- Every mutating operation, applied to a list that satisfies the invariants
(with room for one more node when it is a push), ends without undefined
behaviour and leaves a list that satisfies them; the nodes it leaves are the
nodes it found, plus one for a push, minus the elements the operation
removes. -/
theorem applyOp_invariants [DecidableEq T] (gt : T → T → Bool)
    (hasym : ∀ a b, gt a b = true → gt b a = false) (op : Op T) (l : LinkedList T)
    (hc : CountOk l) (ht : TailOk l) (hroom : op.isPush = true → l.head.length + 1 < SIZE_MOD) :
    ∃ l1, applyOp gt op l = some l1 ∧ CountOk l1 ∧ TailOk l1
      ∧ l1.head.length + removedBy op l.head
          = l.head.length + (if op.isPush then 1 else 0) := by
  cases op with
  | pushFront v =>
    have h := pushFront_invariants l v hc ht (hroom rfl)
    exact ⟨_, rfl, h.1, h.2, by simp [pushFront, Op.isPush, removedBy]⟩
  | pushBack v =>
    obtain ⟨l1, h1, h2, h3, h4⟩ := pushBack_invariants l v hc ht (hroom rfl)
    exact ⟨l1, by simp [applyOp, h1, Outcome.after], h3, h4, by simp [h2, Op.isPush, removedBy]⟩
  | popFront =>
    obtain ⟨l1, h1, h2, h3, h4⟩ := popFront_invariants l hc ht
    refine ⟨l1, h1, h3, h4, ?_⟩
    rw [h2]
    generalize l.head = chain
    cases chain <;> simp [Op.isPush, removedBy]
  | popBack =>
    obtain ⟨l1, h1, h2, h3, h4⟩ := popBack_invariants l hc ht
    refine ⟨l1, h1, h3, h4, ?_⟩
    rw [h2]
    generalize l.head = chain
    cases chain <;> simp [Op.isPush, removedBy]
  | remove v =>
    obtain ⟨l1, h1, h2, h3, h4⟩ := remove_invariants l v hc ht
    exact ⟨l1, h1, h3, h4, by simpa [Op.isPush, removedBy] using h2⟩
  | removeAll v =>
    obtain ⟨b, l1, h1, h2, h3, h4⟩ := removeAllLoop_invariants v (l.head.length + 1) false l
      (Nat.lt_succ_self _) hc ht
    refine ⟨l1, by simp [applyOp, removeAll, h1, Outcome.after], h3, h4, ?_⟩
    rw [h2]
    simpa [Op.isPush, removedBy] using length_filter_ne_add_count v l.head
  | clear =>
    refine ⟨LinkedList.empty, by simp [applyOp, clear_of_invariants l hc ht, Outcome.after],
      ⟨rfl, by simp [LinkedList.empty, SIZE_MOD]⟩, rfl,
      by simp [LinkedList.empty, Op.isPush, removedBy]⟩
  | sort =>
    obtain ⟨l1, h1, h2, h3, h4⟩ := sort_invariants gt hasym l hc ht
    exact ⟨l1, by simp [applyOp, h1, Outcome.after], h3, h4,
      by simp [h2.length_eq, Op.isPush, removedBy]⟩

/-- A sequence of mutating operations, applied to a list that satisfies the
invariants and has room for the pushes, ends without undefined behaviour on a
list that satisfies them, whose count is the count before plus the pushes
minus the elements removed. -/
theorem run_invariants [DecidableEq T] (gt : T → T → Bool)
    (hasym : ∀ a b, gt a b = true → gt b a = false) (ops : List (Op T)) (l : LinkedList T)
    (hc : CountOk l) (ht : TailOk l) (hroom : l.head.length + ops.length < SIZE_MOD) :
    ∃ l1, run gt ops l = some l1 ∧ CountOk l1 ∧ TailOk l1
      ∧ l1.head.length ≤ l.head.length + ops.length
      ∧ size l1 + removedCount gt ops l = size l + pushCount ops := by
  induction ops generalizing l with
  | nil => exact ⟨l, rfl, hc, ht, le_refl _, rfl⟩
  | cons op ops ih =>
    simp only [List.length_cons] at hroom
    obtain ⟨l1, h1, h2, h3, h4⟩ := applyOp_invariants gt hasym op l hc ht (fun _ => by omega)
    have hp : (if op.isPush = true then 1 else 0) ≤ 1 := by split <;> omega
    obtain ⟨l2, g1, g2, g3, g4, g5⟩ := ih l1 h2 h3 (by omega)
    refine ⟨l2, by simp [run, h1, g1], g2, g3, by simp only [List.length_cons]; omega, ?_⟩
    have e1 : size l1 = l1.head.length := h2.1
    have e2 : size l = l.head.length := hc.1
    have e3 : pushCount (op :: ops) = pushCount ops + (if op.isPush = true then 1 else 0) := by
      simp [pushCount, List.countP_cons]
    simp only [removedCount, h1, e3]
    omega

theorem run_example :
    run gtOf [Op.pushBack 3, Op.pushFront 1, Op.pushBack 2, Op.sort, Op.popBack, Op.remove 1]
      (LinkedList.empty : LinkedList Nat) = some (ofValues [2]) := by
  decide

theorem pushBackEach_eq_copyRest (xs : List T) (this : LinkedList T) :
    pushBackEach xs this = copyRest xs this := by
  induction xs generalizing this with
  | nil => rfl
  | cons x rest ih =>
    simp only [pushBackEach, copyRest]
    cases pushBack this x with
    | returned a l => exact ih l
    | thrown e l => rfl
    | undefined => rfl

/-- The constructor from an initializer list of fewer than `2 ^ 64` values
builds the list of these values in the state the invariants describe. -/
theorem initializerListConstruct_eq (vs : List T) (h : vs.length < SIZE_MOD) :
    initializerListConstruct vs = .returned () (ofValues vs) := by
  unfold initializerListConstruct
  rw [pushBackEach_eq_copyRest, copyRest_eq vs LinkedList.empty rfl
    (by simp [LinkedList.empty, SIZE_MOD])]
  simp [LinkedList.empty, ofValues, Nat.mod_eq_of_lt h]

/-- Claim C15, on two lists obtained through the public interface. (1) `A`
constructed from `{1}`, `B` default-constructed, then `B = A`: `B` holds one
node, so `isEmpty()` is `false`, while `size()` is `0`. (2) `A` constructed
from `{1, 2}`, `B` copy-constructed from `A`, then `popFront()` twice on `B`:
`B` holds no node, so `isEmpty()` is `true`, while `size()` is `1`. -/
theorem isEmpty_size_disagree_after_copy :
    (initializerListConstruct [1] = .returned () (ofValues [1])
        ∧ copyAssign LinkedList.empty (ofValues [1]) false
            = .done { sizeOfList := 0, head := [1], tail := .node 0 } (ofValues [1])
        ∧ isEmpty ({ sizeOfList := 0, head := [1], tail := .node 0 } : LinkedList Nat) = false
        ∧ size ({ sizeOfList := 0, head := [1], tail := .node 0 } : LinkedList Nat) = 0)
      ∧ (initializerListConstruct [1, 2] = .returned () (ofValues [1, 2])
        ∧ copyConstruct (ofValues [1, 2])
            = .done { sizeOfList := 3, head := [1, 2], tail := .node 1 } (ofValues [1, 2])
        ∧ (popFront ({ sizeOfList := 3, head := [1, 2], tail := .node 1 } : LinkedList Nat)).andThen
              (fun _ l1 => popFront l1)
            = .returned 2 { sizeOfList := 1, head := [], tail := .null }
        ∧ isEmpty ({ sizeOfList := 1, head := [], tail := .null } : LinkedList Nat) = true
        ∧ size ({ sizeOfList := 1, head := [], tail := .null } : LinkedList Nat) = 1) := by
  decide

/-- On a list that satisfies the structural invariant `isEmpty()` agrees with
`size() == 0`. -/
theorem isEmpty_iff_size_zero (l : LinkedList T) (h : Invariant l) :
    isEmpty l = true ↔ size l = 0 := by
  obtain ⟨_, _, h3, _, _⟩ := h
  rw [size, h3, isEmpty, List.isEmpty_iff]

theorem findFrom_some [DecidableEq T] (v : T) (k : Nat) (xs : List T) (i : Nat)
    (h : findFrom v k xs = some i) :
    k ≤ i ∧ xs[i - k]? = some v ∧ ∀ j, j < i - k → xs[j]? ≠ some v := by
  induction xs generalizing k with
  | nil => simp [findFrom] at h
  | cons x rest ih =>
    by_cases hx : x = v
    · simp only [findFrom, hx, if_true, Option.some.injEq] at h
      subst h
      subst hx
      simp
    · simp only [findFrom, hx, if_false] at h
      obtain ⟨h1, h2, h3⟩ := ih (k + 1) h
      have e : i - k = (i - (k + 1)) + 1 := by omega
      refine ⟨by omega, ?_, ?_⟩
      · rw [e, List.getElem?_cons_succ]
        exact h2
      · intro j hj
        cases j with
        | zero =>
          simp only [List.getElem?_cons_zero, ne_eq, Option.some.injEq]
          exact hx
        | succ j2 =>
          rw [List.getElem?_cons_succ]
          exact h3 j2 (by omega)

/-- Claim C16: for every list with element sequence `s` and every value `v`,
`find(v)` gives the null pointer if and only if no element of `s` equals `v`,
and otherwise points into the node at the least index `i` with `s[i] == v`;
`contains(v)` is `true` if and only if `find(v)` is not null, that is if and
only if `v` occurs in `s`. Both are `const` members: they yield a value and no
new state of the list. -/
theorem find_first_match [DecidableEq T] (l : LinkedList T) (v : T) :
    (find l v = none ↔ v ∉ l.head)
      ∧ (∀ i, find l v = some i →
          l.head[i]? = some v ∧ ∀ j, j < i → l.head[j]? ≠ some v)
      ∧ (contains l v = true ↔ find l v ≠ none)
      ∧ (contains l v = true ↔ v ∈ l.head) := by
  refine ⟨findFrom_eq_none_iff v 0 l.head, ?_, ?_, contains_iff l v⟩
  · intro i h
    obtain ⟨_, h2, h3⟩ := findFrom_some v 0 l.head i h
    exact ⟨h2, h3⟩
  · unfold contains
    cases find l v <;> simp

theorem find_example :
    find (ofValues [1, 2, 3, 2]) 2 = some 1 ∧ find (ofValues [1, 2, 3, 2]) 7 = none
      ∧ contains (ofValues [1, 2, 3, 2]) 2 = true ∧ contains (ofValues [1, 2, 3, 2]) 7 = false := by
  decide

/-- The traversal from the node at position `k` (or from `end()` when `k` is
the length) visits the values from `k` on. -/
theorem traverseFrom_eq (l : LinkedList T) (fuel k : Nat) (hk : k ≤ l.head.length)
    (hf : l.head.length - k < fuel) :
    traverseFrom l fuel { pointerToNode := if k < l.head.length then .node k else .null }
      = some (l.head.drop k) := by
  induction fuel generalizing k with
  | zero => omega
  | succ fuel ih =>
    by_cases hlt : k < l.head.length
    · have hne : ({ pointerToNode := NodePtr.node k } : Iterator) ≠ end_ l := by
        simp [end_]
      have hd : Iterator.deref l.head { pointerToNode := NodePtr.node k } = some l.head[k] := by
        simp [Iterator.deref, derefValue, List.getElem?_eq_getElem hlt]
      have hi : Iterator.increment l.head { pointerToNode := NodePtr.node k }
          = some { pointerToNode := if k + 1 < l.head.length then .node (k + 1) else .null } := by
        simp [Iterator.increment, hlt]
      simp only [hlt, if_true, traverseFrom, hne, if_false, hd, hi]
      rw [ih (k + 1) (by omega) (by omega)]
      simp only [Option.map_some']
      rw [← List.drop_eq_getElem_cons hlt]
    · have e : k = l.head.length := by omega
      subst e
      simp [traverseFrom, end_]

theorem begin_eq (l : LinkedList T) :
    begin l = { pointerToNode := if 0 < l.head.length then .node 0 else .null } := by
  obtain ⟨s, chain, tl⟩ := l
  cases chain <;> simp [begin]

/-- The traversal of any list from `begin()` to `end()` visits the values of
its chain in order, each once. -/
theorem traverse_eq (l : LinkedList T) : traverse l = some l.head := by
  unfold traverse
  rw [begin_eq, traverseFrom_eq l _ 0 (Nat.zero_le _) (by omega)]
  simp

/-- Claim C18: for every sequence `vs` of fewer than `2 ^ 64` values, the
constructor from `vs` returns a list whose `size()` is the length of `vs` and
whose traversal from `begin()` with `++` until the iterator equals `end()`
visits exactly the values of `vs`, in order, each once; `begin()` equals
`end()` exactly when `vs` is empty. The list built from `[10, 20, 30]` is
visited as `10, 20, 30`. -/
theorem construct_then_iterate (vs : List T) (h : vs.length < SIZE_MOD) :
    (∃ l, initializerListConstruct vs = .returned () l ∧ size l = vs.length ∧ l.head = vs
        ∧ traverse l = some vs ∧ (begin l = end_ l ↔ vs = []))
      ∧ (∃ l, initializerListConstruct [10, 20, 30] = .returned () l
          ∧ traverse l = some [10, 20, 30]) := by
  refine ⟨⟨ofValues vs, initializerListConstruct_eq vs h, rfl, rfl, traverse_eq _, ?_⟩,
    ⟨ofValues [10, 20, 30], by decide, by decide⟩⟩
  cases vs <;> simp [begin, end_, ofValues]

theorem construct_then_iterate_witness :
    [10, 20, 30].length < SIZE_MOD
      ∧ ((∃ l, initializerListConstruct [10, 20, 30] = .returned () l
            ∧ size l = [10, 20, 30].length ∧ l.head = [10, 20, 30]
            ∧ traverse l = some [10, 20, 30] ∧ (begin l = end_ l ↔ [10, 20, 30] = []))
          ∧ (∃ l, initializerListConstruct [10, 20, 30] = .returned () l
              ∧ traverse l = some [10, 20, 30])) :=
  ⟨by decide, construct_then_iterate [10, 20, 30] (by decide)⟩

theorem eq_ofValues (l : LinkedList T) (hc : CountOk l) (ht : TailOk l) :
    l = ofValues l.head := by
  obtain ⟨s, chain, tl⟩ := l
  obtain ⟨h1, _⟩ := hc
  simp only [TailOk] at ht
  simp only at h1
  subst h1 ht
  rfl

theorem popFront_ofValues (x : T) (rest : List T) (h : (x :: rest).length < SIZE_MOD) :
    popFront (ofValues (x :: rest)) = .returned x (ofValues rest) := by
  simp only [popFront, ofValues, List.length_cons]
  rw [decSize_of_pos (by omega) (by simpa using h)]
  cases rest <;> simp [lastPtr, NodePtr.afterDelete]

/-- On a list in the state the invariants describe, `k` calls of `popFront()`
with `k` at most the number of nodes all return and leave the nodes from
position `k` on. -/
theorem popFrontTimes_ofValues (k : Nat) (xs : List T) (hk : k ≤ xs.length)
    (h : xs.length < SIZE_MOD) :
    popFrontTimes k (ofValues xs) = .returned () (ofValues (xs.drop k)) := by
  induction k generalizing xs with
  | zero => simp [popFrontTimes]
  | succ k ih =>
    cases xs with
    | nil => simp at hk
    | cons x rest =>
      simp only [List.length_cons] at hk h
      rw [popFrontTimes, popFront_ofValues x rest (by simpa using h)]
      simp only [Outcome.andThen, List.drop_succ_cons]
      exact ih rest (by omega) (by omega)

theorem popFrontTimes_succ (n : Nat) (l : LinkedList T) :
    popFrontTimes (n + 1) l = (popFront l).andThen (fun _ l1 => popFrontTimes n l1) := by
  rw [popFrontTimes]

theorem popFrontTimes_succ_single (n s : Nat) (x : T) (tl : NodePtr) :
    popFrontTimes (n + 1) { sizeOfList := s, head := [x], tail := tl }
      = popFrontTimes n { sizeOfList := decSize s, head := [], tail := NodePtr.null } := by
  rw [popFrontTimes_succ]
  simp only [popFront, Outcome.andThen]

theorem popFrontTimes_succ_cons (n s : Nat) (x y : T) (rest : List T) (tl : NodePtr) :
    popFrontTimes (n + 1) { sizeOfList := s, head := x :: y :: rest, tail := tl }
      = popFrontTimes n
          { sizeOfList := decSize s, head := y :: rest, tail := NodePtr.afterDelete 0 tl } := by
  rw [popFrontTimes_succ]
  simp only [popFront, Outcome.andThen]

theorem clearLoop_succ_single (fuel s : Nat) (x : T) (tl : NodePtr) :
    clearLoop (fuel + 1) { sizeOfList := s, head := [x], tail := tl }
      = clearLoop fuel { sizeOfList := decSize s, head := [], tail := NodePtr.null } := by
  simp only [clearLoop, isEmpty, List.isEmpty_cons, Bool.false_eq_true, if_false, popFront,
    Outcome.andThen]

theorem clearLoop_succ_cons (fuel s : Nat) (x y : T) (rest : List T) (tl : NodePtr) :
    clearLoop (fuel + 1) { sizeOfList := s, head := x :: y :: rest, tail := tl }
      = clearLoop fuel
          { sizeOfList := decSize s, head := y :: rest, tail := NodePtr.afterDelete 0 tl } := by
  simp only [clearLoop, isEmpty, List.isEmpty_cons, Bool.false_eq_true, if_false, popFront,
    Outcome.andThen]

/-- The member `clear()` does what as many calls of `popFront()` as there are
nodes do. -/
theorem clearLoop_eq_popFrontTimes (fuel : Nat) (l : LinkedList T) (h : l.head.length < fuel) :
    clearLoop fuel l = popFrontTimes l.head.length l := by
  induction fuel generalizing l with
  | zero => omega
  | succ fuel ih =>
    obtain ⟨s, chain, tl⟩ := l
    cases chain with
    | nil =>
      simp only [clearLoop, isEmpty, List.isEmpty_nil, if_true, List.length_nil]
      rw [popFrontTimes]
    | cons x rest =>
      have h2 : rest.length < fuel := by
        simp only [List.length_cons] at h
        omega
      cases rest with
      | nil =>
        rw [clearLoop_succ_single]
        simp only [List.length_cons, List.length_nil]
        rw [popFrontTimes_succ_single]
        exact ih { sizeOfList := decSize s, head := [], tail := NodePtr.null } h2
      | cons y rest2 =>
        rw [clearLoop_succ_cons]
        simp only [List.length_cons]
        rw [popFrontTimes_succ_cons]
        exact ih ⟨decSize s, y :: rest2, NodePtr.afterDelete 0 tl⟩ h2

/-- On a list whose `sizeOfList` is its number of nodes, `k` calls of
`popFront()` with `k` at most that number all return, and leave the nodes from
position `k` on and a count smaller by `k`. -/
theorem popFrontTimes_count (k : Nat) (l : LinkedList T) (hc : CountOk l)
    (hk : k ≤ l.head.length) :
    ∃ l1, popFrontTimes k l = .returned () l1 ∧ l1.head = l.head.drop k
      ∧ l1.sizeOfList + k = l.sizeOfList := by
  induction k generalizing l with
  | zero => exact ⟨l, by rw [popFrontTimes], rfl, rfl⟩
  | succ k ih =>
    obtain ⟨s, chain, tl⟩ := l
    obtain ⟨h1, h2⟩ := hc
    simp only at h1 h2 hk
    subst h1
    cases chain with
    | nil => simp at hk
    | cons x rest =>
      simp only [List.length_cons] at hk h2
      have hd : decSize (x :: rest).length = rest.length := by
        rw [List.length_cons, decSize_of_pos (by omega) h2]
        omega
      cases rest with
      | nil =>
        rw [popFrontTimes_succ_single, hd]
        obtain ⟨l1, g1, g2, g3⟩ := ih ⟨([] : List T).length, [], NodePtr.null⟩
          ⟨rfl, by simp [SIZE_MOD]⟩ (by simpa using hk)
        refine ⟨l1, g1, g2, ?_⟩
        simp only [List.length_cons, List.length_nil] at g3 ⊢
        omega
      | cons y rest2 =>
        rw [popFrontTimes_succ_cons, hd]
        obtain ⟨l1, g1, g2, g3⟩ := ih ⟨(y :: rest2).length, y :: rest2, NodePtr.afterDelete 0 tl⟩
          ⟨rfl, by simp only; omega⟩ (by simp only; omega)
        refine ⟨l1, g1, g2, ?_⟩
        simp only [List.length_cons] at g3 ⊢
        omega

/-- Claim C19: on every list whose stored count is its number of nodes,
`clear()` returns (it throws nothing and its loop ends) and leaves no
elements, `size()` `0` and `isEmpty()` `true`: the default state, when the
list satisfied the whole structural invariant; this is the state after exactly
`size()` calls of `popFront()`, and after fewer calls the list is not yet
empty. -/
theorem clear_empties (l : LinkedList T) (hc : CountOk l) :
    ∃ l1, clear l = .returned () l1 ∧ l1.head = [] ∧ size l1 = 0 ∧ isEmpty l1 = true
      ∧ (Invariant l → l1 = LinkedList.empty)
      ∧ popFrontTimes (size l) l = .returned () l1
      ∧ (∀ k, k < size l → ∃ l2, popFrontTimes k l = .returned () l2 ∧ isEmpty l2 = false) := by
  obtain ⟨l1, g1, g2, g3⟩ := popFrontTimes_count l.head.length l hc (le_refl _)
  have hclear : clear l = .returned () l1 := by
    unfold clear
    rw [clearLoop_eq_popFrontTimes _ l (Nat.lt_succ_self _), g1]
  have hhead : l1.head = [] := by
    rw [g2]
    simp
  have hsize : size l1 = 0 := by
    have := hc.1
    unfold size
    omega
  refine ⟨l1, hclear, hhead, hsize, by simp [isEmpty, hhead], ?_, ?_, ?_⟩
  · intro hinv
    obtain ⟨_, ht⟩ := (invariant_iff l).mp hinv
    have e := clear_of_invariants l hc ht
    rw [hclear] at e
    cases e
    rfl
  · rw [size, hc.1, g1]
  · intro k hk
    rw [size, hc.1] at hk
    obtain ⟨l2, k1, k2, _⟩ := popFrontTimes_count k l hc (Nat.le_of_lt hk)
    refine ⟨l2, k1, ?_⟩
    have hpos : 0 < (l.head.drop k).length := by
      rw [List.length_drop]
      omega
    rw [isEmpty, k2]
    cases hd : l.head.drop k with
    | nil =>
      rw [hd] at hpos
      simp at hpos
    | cons x rest => rfl

theorem clear_empties_witness :
    CountOk (ofValues [1, 2, 3])
      ∧ ∃ l1, clear (ofValues [1, 2, 3]) = .returned () l1 ∧ l1.head = [] ∧ size l1 = 0
          ∧ isEmpty l1 = true
          ∧ (Invariant (ofValues [1, 2, 3]) → l1 = LinkedList.empty)
          ∧ popFrontTimes (size (ofValues [1, 2, 3])) (ofValues [1, 2, 3]) = .returned () l1
          ∧ (∀ k, k < size (ofValues [1, 2, 3]) →
              ∃ l2, popFrontTimes k (ofValues [1, 2, 3]) = .returned () l2
                ∧ isEmpty l2 = false) :=
  ⟨⟨rfl, by decide⟩, clear_empties (ofValues [1, 2, 3]) ⟨rfl, by decide⟩⟩

theorem front_of_cons (l : LinkedList T) (x : T) (rest : List T) (h : l.head = x :: rest) :
    front l = .returned x l := by
  unfold front
  split
  · rename_i e
    rw [h] at e
    cases e
  · rename_i v r e
    rw [h] at e
    cases e
    rfl

/-- With `tail` on the last node, `back()` returns the last value. -/
theorem back_of_concat (l : LinkedList T) (xs : List T) (v : T) (ht : TailOk l)
    (h : l.head = xs ++ [v]) : back l = .returned v l := by
  obtain ⟨s, chain, tl⟩ := l
  simp only [TailOk] at ht
  simp only at h
  subst ht h
  have hd : derefValue (xs ++ [v]) (lastPtr (xs ++ [v])) = some v := by
    rw [lastPtr_append_singleton]
    simp [derefValue]
  cases xs with
  | nil => simp [back, lastPtr, derefValue]
  | cons a r =>
    simp only [List.cons_append] at hd ⊢
    simp only [back, hd]

theorem run_pushBack_replicate (gt : Nat → Nat → Bool) (n m : Nat) (h : m + n < SIZE_MOD) :
    run gt (List.replicate n (Op.pushBack 0)) (ofValues (List.replicate m 0))
      = some (ofValues (List.replicate (m + n) 0)) := by
  induction n generalizing m with
  | zero => rfl
  | succ n ih =>
    have hp : pushBack (ofValues (List.replicate m 0)) 0
        = .returned () (ofValues (List.replicate (m + 1) 0)) := by
      have ht : TailOk (ofValues (List.replicate m 0)) := rfl
      rw [pushBack_eq _ 0 ht]
      have e1 : incSize (ofValues (List.replicate m 0)).sizeOfList = m + 1 := by
        simp only [ofValues, List.length_replicate]
        exact incSize_of_lt (by omega)
      have e2 : List.replicate m 0 ++ [0] = List.replicate (m + 1) 0 :=
        (List.replicate_succ' (n := m) (a := 0)).symm
      simp only [e1]
      simp only [ofValues, e2, List.length_replicate]
    rw [List.replicate_succ, run]
    simp only [applyOp, hp, Outcome.after]
    rw [ih (m + 1) (by omega)]
    have e3 : m + 1 + n = m + (n + 1) := by omega
    rw [e3]

/-- The list of `2 ^ 32` zeros is reached from the empty list by `2 ^ 32`
calls of `pushBack(0)`. -/
theorem run_fourGiPushes :
    run gtOf fourGiPushes LinkedList.empty = some fourGiElements := by
  have h := run_pushBack_replicate gtOf (2 ^ 32) 0 (by decide)
  rw [Nat.zero_add] at h
  exact h

theorem fourGiElements_head :
    fourGiElements.head = 0 :: List.replicate 4294967295 0 := by
  have e : (2 : Nat) ^ 32 = 4294967295 + 1 := by norm_num
  show List.replicate (2 ^ 32) 0 = 0 :: List.replicate 4294967295 0
  rw [e, List.replicate_succ]

/-- Claim C17, as stated, fails on the list reached from the empty list by
`2 ^ 32` calls of `pushBack(0)`: it is not empty and `front()` returns its
first element `0`, but `list[0]` throws `out_of_range`, so `front()` is not
equal to `list[0]`. -/
theorem front_index_counterexample :
    run gtOf fourGiPushes LinkedList.empty = some fourGiElements
      ∧ fourGiElements.head ≠ []
      ∧ front fourGiElements = .returned 0 fourGiElements
      ∧ operatorIndex fourGiElements 0 = .thrown .out_of_range fourGiElements
      ∧ front fourGiElements ≠ operatorIndex fourGiElements 0 := by
  have hf := front_of_cons fourGiElements 0 _ fourGiElements_head
  refine ⟨run_fourGiPushes, ?_, hf, operatorIndex_fourGiElements, ?_⟩
  · rw [fourGiElements_head]
    exact List.cons_ne_nil _ _
  · rw [hf, operatorIndex_fourGiElements]
    intro e
    cases e

/-- On a non-empty list that satisfies the invariants, `front()` and `back()`
return the first and the last value. -/
theorem front_back_of_invariants (l : LinkedList T) (ht : TailOk l) (hne : l.head ≠ []) :
    ∃ first last, l.head.head? = some first ∧ l.head.getLast? = some last
      ∧ front l = .returned first l ∧ back l = .returned last l := by
  rcases List.eq_nil_or_concat l.head with e | ⟨xs, last, e⟩
  · exact absurd e hne
  · rw [List.concat_eq_append] at e
    cases hh : l.head with
    | nil => exact absurd hh hne
    | cons first rest =>
      refine ⟨first, last, rfl, ?_, front_of_cons l first rest hh, back_of_concat l xs last ht e⟩
      rw [← hh, e]
      exact List.getLast?_concat xs

/-- Within the range of `int`, `list[0]` and `list[-1]` are the first and the
last value. -/
theorem operatorIndex_ends (l : LinkedList T) (first last : T)
    (hc : l.sizeOfList = l.head.length) (hn : (l.head.length : Int) ≤ INT_MAX)
    (hfirst : l.head.head? = some first) (hlast : l.head.getLast? = some last) :
    operatorIndex l 0 = .returned first l ∧ operatorIndex l (-1) = .returned last l := by
  have hpos : 0 < l.head.length := by
    cases hh : l.head with
    | nil => simp [hh] at hfirst
    | cons x r => simp
  constructor
  · obtain ⟨v, hv, hr⟩ := operatorIndex_in_range l 0 hc hn (by omega) (by omega)
    rw [loopBound_nonneg (le_refl _) (by omega)] at hv
    have e : l.head[(0 : Int).toNat]? = l.head.head? := by
      simp [List.head?_eq_getElem?]
    rw [e, hfirst] at hv
    cases hv
    exact hr
  · obtain ⟨v, hv, hr⟩ := operatorIndex_in_range l (-1) hc hn (by omega) (by omega)
    rw [hc, loopBound_neg (by omega) (by omega) hn] at hv
    obtain ⟨ys, hys⟩ := List.getLast?_eq_some_iff.mp hlast
    have e : ((l.head.length : Int) + -1).toNat = ys.length := by
      rw [hys]
      simp only [List.length_append, List.length_singleton, Nat.cast_add, Nat.cast_one]
      omega
    rw [e, hys] at hv
    simp only [List.getElem?_concat_length, Option.some.injEq] at hv
    rw [hv]
    exact hr

/-- Claim C17, amended: on every non-empty list reached from the empty list
by a sequence of fewer than `2 ^ 64` calls of `pushFront`, `pushBack`,
`popFront`, `popBack`, `remove`, `removeAll`, `clear` and `sort`, `front()`
returns the first element of the current sequence and `back()` its last
element, equal to `list[0]` and `list[-1]` when the number of elements is
within the range of `int`; after a `popBack()`, and after a `remove` that
deleted the last node, `back()` returns the former second-to-last element. -/
theorem front_back_ends [DecidableEq T] (gt : T → T → Bool)
    (hasym : ∀ a b, gt a b = true → gt b a = false) (ops : List (Op T)) (l : LinkedList T)
    (hops : ops.length < SIZE_MOD) (hrun : run gt ops LinkedList.empty = some l)
    (hne : l.head ≠ []) :
    ∃ first last, l.head.head? = some first ∧ l.head.getLast? = some last
      ∧ front l = .returned first l ∧ back l = .returned last l
      ∧ ((l.head.length : Int) ≤ INT_MAX →
          operatorIndex l 0 = .returned first l ∧ operatorIndex l (-1) = .returned last l)
      ∧ (∀ v l1, popBack l = .returned v l1 →
          l1.head = l.head.dropLast
            ∧ ∀ w, l.head.dropLast.getLast? = some w → back l1 = .returned w l1)
      ∧ (∀ v l1, remove l v = .returned true l1 → l1.head = l.head.dropLast →
          ∀ w, l.head.dropLast.getLast? = some w → back l1 = .returned w l1) := by
  obtain ⟨l0, h1, hc, ht, _, _⟩ := run_invariants gt hasym ops LinkedList.empty
    ⟨rfl, by simp [LinkedList.empty, SIZE_MOD]⟩ rfl (by simpa [LinkedList.empty] using hops)
  rw [hrun] at h1
  cases h1
  obtain ⟨first, last, f1, f2, f3, f4⟩ := front_back_of_invariants l ht hne
  refine ⟨first, last, f1, f2, f3, f4, fun hn => operatorIndex_ends l first last hc.1 hn f1 f2,
    ?_, ?_⟩
  · intro v l1 hp
    obtain ⟨l2, g1, g2, _, g4⟩ := popBack_invariants l hc ht
    rw [hp] at g1
    simp only [Outcome.after, Option.some.injEq] at g1
    subst g1
    refine ⟨g2, fun w hw => ?_⟩
    obtain ⟨ys, hys⟩ := List.getLast?_eq_some_iff.mp hw
    exact back_of_concat l1 ys w g4 (g2.trans hys)
  · intro v l1 hr hd w hw
    have g4 := remove_tailOk l v true l1 ht hr
    obtain ⟨ys, hys⟩ := List.getLast?_eq_some_iff.mp hw
    exact back_of_concat l1 ys w g4 (hd.trans hys)

theorem front_back_ends_witness :
    (∀ a b : Nat, gtOf a b = true → gtOf b a = false)
      ∧ [Op.pushBack 2, Op.pushFront 1, Op.pushBack 3].length < SIZE_MOD
      ∧ run gtOf [Op.pushBack 2, Op.pushFront 1, Op.pushBack 3] LinkedList.empty
          = some (ofValues [1, 2, 3])
      ∧ (ofValues [1, 2, 3]).head ≠ []
      ∧ ∃ first last, (ofValues [1, 2, 3]).head.head? = some first
          ∧ (ofValues [1, 2, 3]).head.getLast? = some last
          ∧ front (ofValues [1, 2, 3]) = .returned first (ofValues [1, 2, 3])
          ∧ back (ofValues [1, 2, 3]) = .returned last (ofValues [1, 2, 3])
          ∧ ((((ofValues [1, 2, 3]).head.length : Nat) : Int) ≤ INT_MAX →
              operatorIndex (ofValues [1, 2, 3]) 0 = .returned first (ofValues [1, 2, 3])
                ∧ operatorIndex (ofValues [1, 2, 3]) (-1) = .returned last (ofValues [1, 2, 3]))
          ∧ (∀ v l1, popBack (ofValues [1, 2, 3]) = .returned v l1 →
              l1.head = (ofValues [1, 2, 3]).head.dropLast
                ∧ ∀ w, (ofValues [1, 2, 3]).head.dropLast.getLast? = some w →
                    back l1 = .returned w l1)
          ∧ (∀ v l1, remove (ofValues [1, 2, 3]) v = .returned true l1 →
              l1.head = (ofValues [1, 2, 3]).head.dropLast →
              ∀ w, (ofValues [1, 2, 3]).head.dropLast.getLast? = some w →
                back l1 = .returned w l1) :=
  ⟨gtOf_asymm, by decide, by decide, by decide,
    front_back_ends gtOf gtOf_asymm [Op.pushBack 2, Op.pushFront 1, Op.pushBack 3]
      (ofValues [1, 2, 3]) (by decide) (by decide) (by decide)⟩

theorem back_after_removing_last :
    (popBack (ofValues [1, 2, 3])).andThen (fun _ l1 => back l1) = .returned 2 (ofValues [1, 2])
      ∧ (remove (ofValues [1, 2, 3]) 3).andThen (fun _ l1 => back l1)
          = .returned 2 (ofValues [1, 2]) := by
  decide

end Containers
